import Mathlib

/-!
# XMPlay TAR archive plugin (`tar.cpp`): octal decoder, header model, archive walker

A shallow embedding of `decodeTarOctal`, `TARENTRY` (`isUSTAR`, `getFileSize`,
`checkChecksum`), `ARC_CheckFile`, `ARC_GetFileList` and `ARC_DecompressFile`.

Conventions of the embedding
* a byte is a `Nat` (an `unsigned char` value), a memory region is a `List Nat`
  or, where the code reads through a pointer past a field, a function from
  offsets to bytes;
* `uint64_t` arithmetic is `Nat` arithmetic reduced modulo `2 ^ 64`;
  `int` arithmetic is `Int` arithmetic wrapped to 32 bits by `wrapInt`;
* what the C language leaves open (width of `size_t`, the out-of-range
  `double`-to-`int` conversion, contents of uninitialised locals and of the
  stack next to a local array) is a field of `Env`;
* the `do … while` loops take a fuel argument: `none` means that the fuel ran
  out before the loop left.
-/

namespace XmpTar

/-! ## Machine arithmetic -/

/-- The modulus of `uint64_t`. -/
def U64 : Nat := 2 ^ 64

/-- Conversion of a signed integer to `uint64_t`. -/
def toU64 (x : Int) : Nat := (x % (2 ^ 64 : Int)).toNat

/-- Two's complement wrap of an integer to a 32-bit `int`. -/
def wrapInt (x : Int) : Int := (x + 2 ^ 31) % 2 ^ 32 - 2 ^ 31

/-- Conversion of an `int` to `DWORD` (32-bit unsigned). -/
def toDWORD (x : Int) : Nat := (x % (2 ^ 32 : Int)).toNat

/-! ## `decodeTarOctal` (tar.cpp 12, 19-36) -/

/-- `#define ASCII_TO_NUMBER(num) ((num)-48)`: the operand is an `unsigned char`
promoted to `int`, so the result is a (possibly negative) `int`. -/
def ASCII_TO_NUMBER (num : Nat) : Int := (num : Int) - 48

/-- First loop of `decodeTarOctal` (lines 26-30). `n` is the offset of
`checkPtr` plus one, `cur` the offset of `currentPtr` from `data`; the byte
examined in this iteration is `data[n-1]`, the first one being `data[size]`. -/
def scanTerminator (data : Nat → Nat) : Nat → Int → Int
  | 0, cur => cur
  | n + 1, cur =>
    scanTerminator data n (if data n = 0 ∨ data n = 32 then (n : Int) - 1 else cur)

/-- Second loop of `decodeTarOctal` (lines 31-34). `n` is the offset of
`currentPtr` plus one; `sum` and `mult` are the `uint64_t` locals. -/
def accumulate (data : Nat → Nat) : Nat → Nat → Nat → Nat
  | 0, sum, _ => sum
  | n + 1, sum, mult =>
    accumulate data n ((sum + toU64 (ASCII_TO_NUMBER (data n)) * mult) % U64) (mult * 8 % U64)

/-- The function `decodeTarOctal(char* data, size_t size)`. `data i` is the byte at
address `data + i`. `currentPtr` and `checkPtr` both start at `data + size`,
one past the field. -/
def decodeTarOctal (data : Nat → Nat) (size : Nat) : Nat :=
  accumulate data (scanTerminator data (size + 1) (size : Int) + 1).toNat 0 1

/-- Memory seen through a pointer to the start of `l`: the bytes of `l`, then
the bytes of `rest`. -/
def memAt (l : List Nat) (rest : Nat → Nat) (i : Nat) : Nat :=
  if i < l.length then l.getD i 0 else rest (i - l.length)

/-! ## Specification-side notions for the decoder -/

/-- Base-8 value of the `k` bytes `data 0 … data (k-1)` read as ASCII digits, most
significant first (Horner scheme). -/
def octalValue (data : Nat → Nat) : Nat → Nat
  | 0 => 0
  | k + 1 => octalValue data k * 8 + (data k - 48)

/-- The byte is an ASCII octal digit `'0'..'7'`. -/
def IsOctalDigit (b : Nat) : Prop := 48 ≤ b ∧ b ≤ 55

/-- The byte is one of the two terminators, NUL or space. -/
def IsTerminator (b : Nat) : Prop := b = 0 ∨ b = 32

instance (b : Nat) : Decidable (IsOctalDigit b) := by unfold IsOctalDigit; infer_instance

instance (b : Nat) : Decidable (IsTerminator b) := by unfold IsTerminator; infer_instance

/-- Memory image of a byte string followed by zero bytes. -/
def bytesFn (l : List Nat) (i : Nat) : Nat := l.getD i 0

/-! ## What the C language leaves open -/

/-- The parts of the execution that the source does not determine. -/
structure Env where
  /-- Whether `size_t` is 64 bits wide (otherwise it is 32 bits wide). -/
  wide : Bool
  /-- Value of `(int)ceil(s / 512.0)` when the quotient is outside the range of
  `int` (undefined in C), as a function of the size `s`. -/
  dtoi : Nat → Int
  /-- Contents of the uninitialised local `TARENTRY e` at the start of a loop
  iteration: iteration number, then offset in the record. -/
  junk : Nat → Nat → Nat
  /-- The bytes that follow the 8-byte local `originalChecksum` in the frame of
  `checkChecksum`. -/
  stack : Nat → Nat

/-! ## `TARENTRY` (tar.cpp 38-93) -/

/-- The `len` bytes of the record `e` starting at offset `off`. -/
def field (e : List Nat) (off len : Nat) : List Nat := (e.drop off).take len

/-- The record `e` with the bytes of `src` written at offset `off`
(`memcpy` / `memset` into a field). -/
def poke (e : List Nat) (off : Nat) (src : List Nat) : List Nat :=
  e.take off ++ src ++ e.drop (off + src.length)

/-- The method `isUSTAR`: `memcmp("ustar", ustar, 5) == 0`; the field `ustar` is at
offset 257. -/
def isUSTAR (e : List Nat) : Bool := field e 257 5 == [117, 115, 116, 97, 114]

/-- Conversion of a `uint64_t` to `size_t`. -/
def toSizeT (E : Env) (x : Nat) : Nat := if E.wide then x % 2 ^ 64 else x % 2 ^ 32

/-- The method `getFileSize`: `decodeTarOctal(size)` with the default width 12; the
field `size` is at offset 124, so the byte at index 12 is `modified[0]`. -/
def getFileSize (E : Env) (e : List Nat) : Nat :=
  toSizeT E (decodeTarOctal (fun i => e.getD (124 + i) 0) 12)

/-- A byte read through `signed char*`. -/
def signedChar (b : Nat) : Int := if b < 128 then (b : Int) else (b : Int) - 256

/-- The summation loop of `checkChecksum` (lines 83-86) for one of the two sums:
the sum of `f (this[i])` for `i < n`. -/
def sumLoop (f : Nat → Int) (e : List Nat) : Nat → Int
  | 0 => 0
  | n + 1 => sumLoop f e n + f (e.getD n 0)

/-- The method `checkChecksum`, returning its result and the record as it is left.
The field `checksum` is at offset 148. The decoder is called with its default
width 12 on the 8-byte local copy, so it reads on into `stack`. -/
def checkChecksumRun (stack : Nat → Nat) (e : List Nat) : Bool × List Nat :=
  let originalChecksum := field e 148 8
  let e1 := poke e 148 (List.replicate 8 32)
  let unsignedSum : Int := sumLoop (fun b => (b : Int)) e1 512
  let signedSum : Int := sumLoop signedChar e1 512
  let e2 := poke e1 148 originalChecksum
  let referenceChecksum := decodeTarOctal (memAt originalChecksum stack) 12
  (referenceChecksum == toU64 unsignedSum || referenceChecksum == toU64 signedSum, e2)

/-- The result of `checkChecksum`. -/
def checkChecksum (stack : Nat → Nat) (e : List Nat) : Bool := (checkChecksumRun stack e).1

/-! ## The host's byte source and allocator -/

/-- A call made on the byte source. -/
inductive Call where
  | getSize : Call
  | seek (pos : Nat) : Call
  | read (len : Nat) : Call
deriving DecidableEq, Repr

/-- Modelled from the spec: the byte source behind an `XMPFILE` handle (`xmparc.h`
and the host are not part of the sources): the archive bytes, the read cursor,
and the calls made so far. -/
structure XMPFILE where
  bytes : List Nat
  cursor : Nat
  calls : List Call
deriving DecidableEq, Repr

/-- A handle as the host passes it in: cursor at the start, no call made yet. -/
def openFile (bytes : List Nat) : XMPFILE := { bytes := bytes, cursor := 0, calls := [] }

/-- Modelled from the spec: `size() -> integer`, the total byte length of the archive,
returned as a `DWORD`. -/
def GetSize (f : XMPFILE) : Nat × XMPFILE :=
  (f.bytes.length % 2 ^ 32, { f with calls := f.calls ++ [Call.getSize] })

/-- Modelled from the spec: `seek(offset) -> bool` repositions the read cursor and is
false on failure, that is for an offset beyond the stream bounds. -/
def Seek (f : XMPFILE) (pos : Nat) : Bool × XMPFILE :=
  if pos ≤ f.bytes.length then
    (true, { f with cursor := pos, calls := f.calls ++ [Call.seek pos] })
  else
    (false, { f with calls := f.calls ++ [Call.seek pos] })

/-- Modelled from the spec: `readExact(buffer, length) -> bytesRead` reads up to `length`
bytes starting at the current cursor, fewer (or none) at the end of the stream.
The bytes delivered stand for the filled part of the buffer. -/
def Read (f : XMPFILE) (len : Nat) : List Nat × XMPFILE :=
  ((f.bytes.drop f.cursor).take len,
   { f with cursor := f.cursor + ((f.bytes.drop f.cursor).take len).length,
            calls := f.calls ++ [Call.read len] })

/-- Modelled from the spec: the allocation collaborator supplies the buffer asked for. -/
def Alloc (_n : Nat) : Bool := true

/-! ## `ARC_CheckFile` (tar.cpp 97-102) -/

/-- The local `TARENTRY e` after `Read(file,&e,512)` delivered `got`: the bytes
read, then whatever the rest of the record held before. -/
def localEntry (junk : Nat → Nat) (got : List Nat) : List Nat :=
  got ++ ((List.range 512).drop got.length).map junk

/-- The function `ARC_CheckFile`. The statement controlled by the comparison of the
read count is empty (`if (…);`), so the count has no effect. -/
def ARC_CheckFile (E : Env) (file : XMPFILE) : Bool × XMPFILE :=
  let r := Read file 512
  let e := localEntry (E.junk 0) r.1
  (isUSTAR e && checkChecksum E.stack e, r.2)

/-! ## The cursor arithmetic shared by both walks (tar.cpp 124-125, 154-155) -/

/-- The value of `(int)ceil(s / 512.0)`: exact when the quotient fits an `int` (then `s` is
below `2^53` and the `double` arithmetic is exact). -/
def blockCount (E : Env) (s : Nat) : Int :=
  if (s + 511) / 512 < 2 ^ 31 then (((s + 511) / 512 : Nat) : Int) else wrapInt (E.dtoi s)

/-- The two statements `h.pos += 512; h.pos += (int)ceil(e.getFileSize() / 512.0) * 512;`
in 32-bit wrapping `int` arithmetic. -/
def advance (E : Env) (e : List Nat) (pos : Int) : Int :=
  wrapInt (wrapInt (pos + 512) + wrapInt (blockCount E (getFileSize E e) * 512))

/-! ## `ARC_GetFileList` (tar.cpp 106-129) -/

/-- The function `strlen` on a byte string that is followed by a NUL. -/
def strlen (s : List Nat) : Nat := (s.takeWhile (fun b => b != 0)).length

/-- The locals of `ARC_GetFileList` between iterations. `fl` holds the bytes
`fl[0..p]` of the list buffer (`none` is `NULL`); `it` counts iterations. -/
structure ListState where
  pos : Int
  fl : Option (List Nat)
  p : Nat
  file : XMPFILE
  it : Nat
deriving DecidableEq, Repr

/-- Lines 118-122: the buffer keeps its first `p` bytes, receives the 100 name
bytes and a NUL, `p` moves past the string that starts at `fl+p`, and a second
NUL is written at the new `p`. Returns `fl[0..p]` and `p`. -/
def appendName (fl : Option (List Nat)) (p : Nat) (e : List Nat) : List Nat × Nat :=
  let copied := e.take 100 ++ [0]
  ((fl.getD []).take p ++ copied.take (strlen copied + 1) ++ [0], p + strlen copied + 1)

/-- One pass through the body of the `do … while` of `ARC_GetFileList`, with the
loop condition: the state reached, and whether the loop goes on. -/
def listBody (E : Env) (max : Int) (s : ListState) : ListState × Bool :=
  let sk := Seek s.file (toDWORD s.pos)
  if sk.1 = false then ({ s with file := sk.2 }, false) else
  let rd := Read sk.2 512
  if rd.1.length = 0 then ({ s with file := rd.2 }, false) else
  let e := localEntry (E.junk s.it) rd.1
  let fl1 := if e.getD 0 0 ≠ 0 then some (appendName s.fl s.p e).1 else s.fl
  let p1 := if e.getD 0 0 ≠ 0 then (appendName s.fl s.p e).2 else s.p
  let pos1 := advance E e s.pos
  ({ pos := pos1, fl := fl1, p := p1, file := rd.2, it := s.it + 1 },
   decide (pos1 < max ∧ pos1 > 0))

/-- The `do … while` loop of `ARC_GetFileList`. -/
def listLoop (E : Env) (max : Int) : Nat → ListState → Option ListState
  | 0, _ => none
  | fuel + 1, s =>
    if (listBody E max s).2 then listLoop E max fuel (listBody E max s).1
    else some (listBody E max s).1

/-- The function `ARC_GetFileList`: the returned pointer (the bytes up to and including
the closing NUL, `none` for `NULL`) and the byte source as it is left. -/
def ARC_GetFileList (E : Env) (fuel : Nat) (file : XMPFILE) : Option (Option (List Nat) × XMPFILE) :=
  let sz := GetSize file
  (listLoop E (wrapInt sz.1) fuel { pos := 0, fl := none, p := 0, file := sz.2, it := 0 }).map
    (fun s => (s.fl, s.file))

/-! ## `ARC_DecompressFile` (tar.cpp 134-159) -/

/-- The function `strncmp(s1, s2, n)` on byte strings that are followed by NULs. -/
def strncmp : List Nat → List Nat → Nat → Int
  | _, _, 0 => 0
  | s1, s2, n + 1 =>
    if s1.headD 0 ≠ s2.headD 0 then (s1.headD 0 : Int) - (s2.headD 0 : Int)
    else if s1.headD 0 = 0 then 0
    else strncmp s1.tail s2.tail n

/-- The locals of `ARC_DecompressFile` between iterations. -/
structure WalkState where
  pos : Int
  file : XMPFILE
  it : Nat
deriving DecidableEq, Repr

/-- What `ARC_DecompressFile` hands back: the returned pointer (`none` is `NULL`,
otherwise the bytes delivered into the buffer), the value of `*len`, and the
byte source as it is left. -/
structure Extracted where
  buf : Option (List Nat)
  len : Nat
  file : XMPFILE
deriving DecidableEq, Repr

/-- Outcome of one pass through a loop body: go on with the next iteration, or
leave the function. -/
inductive Flow where
  | next (s : WalkState) : Flow
  | leave (r : Extracted) : Flow
deriving DecidableEq, Repr

/-- Lines 146-151, after the name matched at cursor `pos`. -/
def deliver (E : Env) (len : Nat) (pos : Int) (e : List Nat) (file : XMPFILE) : Extracted :=
  let sk := Seek file (toDWORD (wrapInt (pos + 512)))
  if sk.1 = false then { buf := none, len := len, file := sk.2 } else
  let wanted := min (getFileSize E e) len
  if Alloc wanted = false then { buf := none, len := len, file := sk.2 } else
  let rd := Read sk.2 wanted
  { buf := some rd.1, len := rd.1.length, file := rd.2 }

/-- One pass through the body of the `do … while` of `ARC_DecompressFile`, with
the loop condition. -/
def decompressBody (E : Env) (max : Int) (entry : List Nat) (len : Nat) (s : WalkState) : Flow :=
  let sk := Seek s.file (toDWORD s.pos)
  if sk.1 = false then Flow.leave { buf := none, len := len, file := sk.2 } else
  let rd := Read sk.2 512
  if rd.1.length = 0 then Flow.leave { buf := none, len := len, file := rd.2 } else
  let e := localEntry (E.junk s.it) rd.1
  if e.getD 0 0 ≠ 0 ∧ strncmp e entry 100 = 0 then Flow.leave (deliver E len s.pos e rd.2) else
  let pos1 := advance E e s.pos
  if pos1 < max ∧ pos1 > 0 then Flow.next { pos := pos1, file := rd.2, it := s.it + 1 }
  else Flow.leave { buf := none, len := len, file := rd.2 }

/-- The `do … while` loop of `ARC_DecompressFile`. -/
def decompressLoop (E : Env) (max : Int) (entry : List Nat) (len : Nat) :
    Nat → WalkState → Option Extracted
  | 0, _ => none
  | fuel + 1, s =>
    match decompressBody E max entry len s with
    | Flow.next s1 => decompressLoop E max entry len fuel s1
    | Flow.leave r => some r

/-- The function `ARC_DecompressFile(file, entry, len)`; `len` is the value of `*len` on entry. -/
def ARC_DecompressFile (E : Env) (fuel : Nat) (file : XMPFILE) (entry : List Nat) (len : Nat) :
    Option Extracted :=
  if strlen entry > 100 then some { buf := none, len := len, file := file } else
  let sz := GetSize file
  decompressLoop E (wrapInt sz.1) entry len fuel { pos := 0, file := sz.2, it := 0 }

/-- The state at the start of iteration `i` of the extraction loop (`none` when the
function has left before). -/
def decompressIter (E : Env) (max : Int) (entry : List Nat) (len : Nat) :
    Nat → WalkState → Option WalkState
  | 0, s => some s
  | i + 1, s =>
    match decompressBody E max entry len s with
    | Flow.next s1 => decompressIter E max entry len i s1
    | Flow.leave _ => none

/-- The record that the iteration starting in state `s` reads (`none` when the seek
fails or the read delivers nothing). -/
def headerAt (E : Env) (s : WalkState) : Option (List Nat) :=
  if (Seek s.file (toDWORD s.pos)).1 = false then none
  else if (Read (Seek s.file (toDWORD s.pos)).2 512).1.length = 0 then none
  else some (localEntry (E.junk s.it) (Read (Seek s.file (toDWORD s.pos)).2 512).1)

/-- The test of lines 144-145 on the record `e`. -/
def Matches (e entry : List Nat) : Prop := e.getD 0 0 ≠ 0 ∧ strncmp e entry 100 = 0

instance (e entry : List Nat) : Decidable (Matches e entry) := by unfold Matches; infer_instance

/-! ## Specification-side notions for the checksum -/

/-- The buffer of 22 digits `'7'` followed by a NUL. -/
def sevens : Nat → Nat := bytesFn (List.replicate 22 55 ++ [0])

/-- The record with its checksum field taken as 8 spaces. -/
def spaced (h : List Nat) : List Nat := poke h 148 (List.replicate 8 32)

/-- Sum of the bytes of `l` read as unsigned bytes. -/
def unsignedByteSum (l : List Nat) : Int := (l.map (fun (b : Nat) => (b : Int))).sum

/-- Sum of the bytes of `l` read as signed bytes. -/
def signedByteSum (l : List Nat) : Int := (l.map signedChar).sum

/-- Octal decode, at width 8, of the checksum field where it lies in the record. -/
def checksumDecode8 (h : List Nat) : Nat := decodeTarOctal (fun i => h.getD (148 + i) 0) 8

/-- The 8-byte checksum field holds a NUL or a space. -/
def ChecksumTerminated (h : List Nat) : Prop := ∃ k, k < 8 ∧ IsTerminator (h.getD (148 + k) 0)

instance (h : List Nat) : Decidable (ChecksumTerminated h) := by
  unfold ChecksumTerminated; infer_instance

/-- The right-hand side of the checksum claim as it is worded: the decoded field
equals the unsigned or the signed sum. -/
def ChecksumAgrees (h : List Nat) : Prop :=
  (checksumDecode8 h : Int) = unsignedByteSum (spaced h) ∨
  (checksumDecode8 h : Int) = signedByteSum (spaced h)

instance (h : List Nat) : Decidable (ChecksumAgrees h) := by
  unfold ChecksumAgrees; infer_instance

/-- A record of 265 bytes `0xFF` and 247 NULs whose checksum field is then
overwritten with `"/"` and 7 NULs: 257 bytes `0xFF` remain, so its signed sum
(field taken as spaces) is `-1`. -/
def slashHeader : List Nat :=
  poke (List.replicate 265 255 ++ List.replicate 247 0) 148 [47, 0, 0, 0, 0, 0, 0, 0]

/-- An all-NUL record whose checksum field holds the 8 digits `"00000400"` and no
terminator; both sums (field taken as spaces) are 256. -/
def eightDigitHeader : List Nat :=
  poke (List.replicate 512 0) 148 [48, 48, 48, 48, 48, 52, 48, 48]

/-- The number `c` written with `d` octal digits, zero-padded, most significant first. -/
def octalDigits : Nat → Nat → List Nat
  | _, 0 => []
  | c, d + 1 => octalDigits (c / 8) d ++ [48 + c % 8]

/-- The checksum that a writer computes for `h`: the unsigned byte sum with the
checksum field taken as 8 spaces. -/
def computeChecksum (h : List Nat) : Nat := (unsignedByteSum (spaced h)).toNat

/-- An 8-byte checksum field: `d` zero-padded octal digits, a NUL, then spaces. -/
def checksumField (c d : Nat) : List Nat := octalDigits c d ++ [0] ++ List.replicate (7 - d) 32

/-- The record `h` with its checksum written into the checksum field with `d` digits. -/
def writeChecksum (h : List Nat) (d : Nat) : List Nat :=
  poke h 148 (checksumField (computeChecksum h) d)

/-- An all-NUL record whose checksum field holds `"000400"`, NUL, space: the usual
layout, with the right value (both sums are 256). -/
def plainHeader : List Nat :=
  poke (List.replicate 512 0) 148 [48, 48, 48, 52, 48, 48, 0, 32]

/-! ## Concrete environments and archives used at the witnesses -/

/-- A 32-bit environment whose uninitialised memory holds NUL bytes. -/
def env32 : Env := { wide := false, dtoi := fun _ => 0, junk := fun _ _ => 0, stack := fun _ => 0 }

/-- A 64-bit environment whose uninitialised memory holds bytes `0xFF`. -/
def env64 : Env :=
  { wide := true, dtoi := fun _ => -2147483648, junk := fun _ _ => 255, stack := fun _ => 255 }

/-- The ASCII string `"ustar"`. -/
def ustarMagic : List Nat := [117, 115, 116, 97, 114]

/-- A 512-byte header block: the name, NUL padding, the size as 11 octal digits and
a NUL at offset 124, the magic `"ustar"` at offset 257, and the checksum then
written with 6 digits, NUL, space. -/
def mkHeader (name : List Nat) (size : Nat) : List Nat :=
  writeChecksum
    (poke (poke (poke (List.replicate 512 0) 0 name) 124 (octalDigits size 11 ++ [0])) 257
      (ustarMagic ++ [0]))
    6

/-! ## Specification-side notions for archives -/

/-- An archive member as a writer lays it out: a header block and the data. -/
structure TarEntry where
  header : List Nat
  data : List Nat
deriving DecidableEq, Repr

/-- Number of padding bytes after `n` data bytes, up to the next multiple of 512. -/
def padLen (n : Nat) : Nat := (512 - n % 512) % 512

/-- The bytes of a member: header, data, zero padding to a multiple of 512. -/
def entryBytes (x : TarEntry) : List Nat :=
  x.header ++ (x.data ++ List.replicate (padLen x.data.length) 0)

/-- The bytes of a sequence of members. -/
def archiveBody : List TarEntry → List Nat
  | [] => []
  | x :: xs => entryBytes x ++ archiveBody xs

/-- An all-zero 512-byte block, seen as a member without data. -/
def zeroBlock : TarEntry := { header := List.replicate 512 0, data := [] }

/-- The archive made of the members `es` followed by `z` all-zero blocks. -/
def archiveOf (es : List TarEntry) (z : Nat) : List Nat :=
  archiveBody (es ++ List.replicate z zeroBlock)

/-- The size field of the header is `k < 12` octal digits and a terminator, and its
value is the length of the data. -/
def SizeFieldOk (x : TarEntry) : Prop :=
  ∃ k, k < 12 ∧ (∀ i, i < k → IsOctalDigit (x.header.getD (124 + i) 0)) ∧
    IsTerminator (x.header.getD (124 + k) 0) ∧
    octalValue (fun i => x.header.getD (124 + i) 0) k = x.data.length

/-- A block the walk can step over: 512 header bytes with a well-formed size field. -/
def Walkable (x : TarEntry) : Prop := x.header.length = 512 ∧ SizeFieldOk x

/-- A member of a well-formed archive: walkable, with a non-zero first name byte. -/
def WellFormedEntry (x : TarEntry) : Prop := Walkable x ∧ x.header.getD 0 0 ≠ 0

/-- The name of a record: the name field up to its first NUL, all 100 bytes if it
has none. -/
def recordName (e : List Nat) : List Nat := (e.take 100).takeWhile (fun b => b != 0)

/-- The names `ns` as NUL-terminated strings, one after the other. -/
def namesBytes : List (List Nat) → List Nat
  | [] => []
  | n :: ns => n ++ (0 :: namesBytes ns)

/-- The list buffer for the names `ns`: `NULL` for no name, otherwise the
NUL-terminated strings followed by one more NUL. -/
def encodeNames (ns : List (List Nat)) : Option (List Nat) :=
  if ns = [] then none else some (namesBytes ns ++ [0])

/-- The names that a walk over the blocks `bs` lists: those of the blocks whose first
name byte is not NUL. -/
def listedNames : List TarEntry → List (List Nat)
  | [] => []
  | x :: xs =>
    if x.header.getD 0 0 ≠ 0 then recordName x.header :: listedNames xs else listedNames xs

/-- The loop invariant of the listing walk over the archive `a`: the cursor stands
after the bytes `pre`, and the buffer holds the names `acc`. -/
def ListInv (a pre : List Nat) (acc : List (List Nat)) (s : ListState) : Prop :=
  s.file.bytes = a ∧ s.pos = (pre.length : Int) ∧ s.fl = encodeNames acc ∧
    s.p = (namesBytes acc).length

instance (x : TarEntry) : Decidable (SizeFieldOk x) := by unfold SizeFieldOk; infer_instance

instance (x : TarEntry) : Decidable (Walkable x) := by unfold Walkable; infer_instance

instance (x : TarEntry) : Decidable (WellFormedEntry x) := by
  unfold WellFormedEntry; infer_instance

/-- A member with a USTAR header written for its name and data. -/
def mkEntry (name data : List Nat) : TarEntry :=
  { header := mkHeader name data.length, data := data }

/-- The ASCII string `"a.txt"`. -/
def nameA : List Nat := [97, 46, 116, 120, 116]

/-- The ASCII string `"ab.txt"`. -/
def nameAB : List Nat := [97, 98, 46, 116, 120, 116]

/-- The ASCII string `"big.bin"`. -/
def nameBig : List Nat := [98, 105, 103, 46, 98, 105, 110]

/-- The ASCII string `"hello"`. -/
def hello : List Nat := [104, 101, 108, 108, 111]

/-- The 1000 bytes of `big.bin`: byte `i` is `i % 251`. -/
def bigData : List Nat := (List.range 1000).map (fun i => i % 251)

/-- Three members: `a.txt` (5 bytes, `"hello"`), `big.bin` (1000 bytes), `ab.txt`
(3 bytes, `"abc"`). -/
def sampleEntries : List TarEntry :=
  [mkEntry nameA hello, mkEntry nameBig bigData, mkEntry nameAB [97, 98, 99]]

/-- The length of the archive of the members `es` and `z` zero blocks, from the data
lengths alone. -/
def archiveLen (es : List TarEntry) (z : Nat) : Nat :=
  (es.map (fun x => 512 + 512 * ((x.data.length + 511) / 512))).sum + 512 * z

/-! ## Specification-side notions for the extraction walk -/

/-- The content of a NUL-terminated string: the bytes before the first NUL. -/
def cstring (s : List Nat) : List Nat := s.takeWhile (fun b => b != 0)

/-- The extraction loop's limit `h.max` for the archive `a`. -/
def walkMax (a : List Nat) : Int := wrapInt ((GetSize (openFile a)).1 : Int)

/-- The extraction loop's state before its first iteration on the archive `a`. -/
def walkStart (a : List Nat) : WalkState :=
  { pos := 0, file := (GetSize (openFile a)).2, it := 0 }

/-- Iteration `i` of the extraction walk over `a` for the target `entry` starts at
cursor `p` and reads the record `e`. -/
def VisitsAt (E : Env) (a entry : List Nat) (len i : Nat) (p : Int) (e : List Nat) : Prop :=
  ∃ s, decompressIter E (walkMax a) entry len i (walkStart a) = some s ∧ s.pos = p ∧
    headerAt E s = some e

/-- The archive that holds `big.bin` (1000 bytes) and two zero blocks. -/
def bigArchive : List Nat := archiveOf [mkEntry nameBig bigData] 2

/-- The archive that holds `ab.txt` (3 bytes, `"abc"`), then `a.txt` (5 bytes,
`"hello"`), then two zero blocks. -/
def prefixArchive : List Nat := archiveOf [mkEntry nameAB [97, 98, 99], mkEntry nameA hello] 2

/-- A name of exactly 100 bytes `'a'`. -/
def name100 : List Nat := List.replicate 100 97

/-- A name of 101 bytes `'a'`. -/
def name101 : List Nat := List.replicate 101 97

/-- An archive of one block whose 100-byte name field is `name100` (no NUL in it),
with the size field `"10"` (8 bytes), followed by 512 bytes `0x01`. Nothing but
the name and the size is filled in. -/
def longNameArchive : List Nat :=
  poke (poke (List.replicate 512 0) 0 name100) 124 [49, 48, 0] ++ List.replicate 512 1

/-- The result `r` of an extraction from `a` comes from the first match of the walk:
some iteration `i`, at cursor `s.pos`, read a record `e` that matches; no record
visited before iteration `i` matches; every visited record that matches is the
one of iteration `i` at that cursor; no iteration starts after `i`; the buffer
holds the bytes read at `s.pos + 512`; and after the read of that header the
byte source saw exactly one more seek and one more read. -/
def FirstMatch (E : Env) (a entry : List Nat) (m : Nat) (r : Extracted) : Prop :=
  ∃ i s e, decompressIter E (walkMax a) entry m i (walkStart a) = some s ∧
    headerAt E s = some e ∧ Matches e entry ∧
    (∀ j pj ej, j < i → VisitsAt E a entry m j pj ej → ¬ Matches ej entry) ∧
    (∀ j pj ej, VisitsAt E a entry m j pj ej → Matches ej entry → j = i ∧ pj = s.pos) ∧
    (∀ j pj ej, VisitsAt E a entry m j pj ej → j ≤ i) ∧
    r.buf = some ((a.drop (toDWORD (wrapInt (s.pos + 512)))).take (min (getFileSize E e) m)) ∧
    r.file.calls = s.file.calls ++ [Call.seek (toDWORD s.pos), Call.read 512,
      Call.seek (toDWORD (wrapInt (s.pos + 512))), Call.read (min (getFileSize E e) m)]

/-- The host's reading of the list buffer: the strings up to the first empty one;
`cur` holds the bytes of the string being read. -/
def splitNames : List Nat → List Nat → List (List Nat)
  | _, [] => []
  | cur, b :: rest =>
    if b = 0 then (if cur = [] then [] else cur :: splitNames [] rest)
    else splitNames (cur ++ [b]) rest

/-- The names that a returned list buffer holds (`NULL` holds none). -/
def parseNames (fl : Option (List Nat)) : List (List Nat) :=
  match fl with
  | none => []
  | some buf => splitNames [] buf

/-- An archive of 600 bytes: the header block of the empty member `a`, then the 88
bytes `"x"`, NUL, 86 NULs of a block that is cut short. -/
def truncArchive : List Nat := mkHeader [97] 0 ++ ([120, 0] ++ List.replicate 86 0)

/-- The fixed-width comparison of the claim: the first `L` name bytes are the target
and the other `100 - L` name bytes are all NUL. -/
def FixedWidthMatch (e entry : List Nat) : Prop :=
  e.take entry.length = entry ∧ ∀ i, i < 100 → entry.length ≤ i → e.getD i 0 = 0

instance (e entry : List Nat) : Decidable (FixedWidthMatch e entry) := by
  unfold FixedWidthMatch; infer_instance

/-- A 512-byte record whose name field holds `"a"`, NUL, `"b"` and 97 NULs. -/
def staleNameRecord : List Nat := poke (List.replicate 512 0) 0 [97, 0, 98]

/-! ## Specification-side notions for arbitrary bytes in an octal field -/

/-- The positional base-8 sum of the `k` bytes `data 0 … data (k-1)`, each counted as
`byte - 48`, the byte `k-1` being the least significant: an integer, negative
when bytes below `'0'` prevail. -/
def positionalSum (data : Nat → Nat) (k : Nat) : Int :=
  ((List.range k).map (fun i => ((data i : Int) - 48) * 8 ^ (k - 1 - i))).sum

/-- A 512-byte record whose size field holds the 12 digits `"000000000012"` and
no terminator, and whose next byte (the first byte of the modification time) is
`m0`; all other bytes are NUL. -/
def twelveDigitHeader (m0 : Nat) : List Nat :=
  poke (poke (List.replicate 512 0) 124 [48, 48, 48, 48, 48, 48, 48, 48, 48, 48, 49, 50]) 136 [m0]

/-- The record that the listing iteration starting in state `s` reads (`none` when the
seek fails or the read delivers nothing). -/
def listHeaderAt (E : Env) (s : ListState) : Option (List Nat) :=
  if (Seek s.file (toDWORD s.pos)).1 = false then none
  else if (Read (Seek s.file (toDWORD s.pos)).2 512).1.length = 0 then none
  else some (localEntry (E.junk s.it) (Read (Seek s.file (toDWORD s.pos)).2 512).1)

/-- An archive of three blocks whose names are empty: two all-zero blocks, then a
block whose size field holds `"37777776000"` and a NUL, that is `2^32 - 1024`. -/
def loopArchive : List Nat :=
  List.replicate 1024 0 ++
    poke (List.replicate 512 0) 124 [51, 55, 55, 55, 55, 55, 55, 54, 48, 48, 48, 0]

/-- An environment in which the uninitialised local record holds the bytes of a
valid USTAR header (as an earlier call may have left them on the stack). -/
def envStale : Env :=
  { wide := false, dtoi := fun _ => 0, junk := fun _ i => (mkHeader [97] 0).getD i 0,
    stack := fun _ => 0 }

/-- The walk that both loops share, without the name test: the state at the start
of iteration `i` when every earlier iteration read a record and the loop
condition held after it (`none` otherwise). The records it reads are the
entries of the archive in archive order. -/
def walkIter (E : Env) (max : Int) : Nat → WalkState → Option WalkState
  | 0, s => some s
  | i + 1, s =>
    match headerAt E s with
    | none => none
    | some e =>
      if advance E e s.pos < max ∧ advance E e s.pos > 0 then
        walkIter E max i
          { pos := advance E e s.pos, file := (Read (Seek s.file (toDWORD s.pos)).2 512).2,
            it := s.it + 1 }
      else none

/-- The archive that holds `ab.txt` (no data), then `a.txt` with the data `"hello"`,
then a second `a.txt` without data: 2048 bytes. -/
def tripleArchive : List Nat :=
  archiveOf [mkEntry nameAB [], mkEntry nameA hello, mkEntry nameA []] 0

/-! ## Lemmas on the decoder -/

theorem scanTerminator_none (data : Nat → Nat) (n : Nat) (cur : Int)
    (h : ∀ i, i < n → ¬ IsTerminator (data i)) :
    scanTerminator data n cur = cur := by
  induction n generalizing cur with
  | zero => rfl
  | succ n ih =>
    have hn : ¬ IsTerminator (data n) := h n (Nat.lt_succ_self n)
    unfold IsTerminator at hn
    rw [scanTerminator, if_neg hn]
    exact ih cur (fun i hi => h i (Nat.lt_succ_of_lt hi))

/-- The first loop leaves `currentPtr` just before the lowest-index terminator
among `data[0..n-1]`. -/
theorem scanTerminator_first (data : Nat → Nat) (n k : Nat) (cur : Int) (hk : k < n)
    (hterm : IsTerminator (data k)) (hbefore : ∀ i, i < k → ¬ IsTerminator (data i)) :
    scanTerminator data n cur = (k : Int) - 1 := by
  induction n generalizing cur with
  | zero => omega
  | succ n ih =>
    rw [scanTerminator]
    by_cases hkn : k = n
    · subst hkn
      unfold IsTerminator at hterm
      rw [if_pos hterm]
      exact scanTerminator_none data k _ hbefore
    · exact ih _ (by omega)

theorem accumulate_congr (d1 d2 : Nat → Nat) (n sum mult : Nat)
    (h : ∀ i, i < n → d1 i = d2 i) :
    accumulate d1 n sum mult = accumulate d2 n sum mult := by
  induction n generalizing sum mult with
  | zero => rfl
  | succ n ih =>
    rw [accumulate, accumulate, h n (Nat.lt_succ_self n)]
    exact ih _ _ (fun i hi => h i (Nat.lt_succ_of_lt hi))

/-- With a terminator at `k ≤ size` and none before it, the decoder processes
exactly `data[0..k-1]`. -/
theorem decodeTarOctal_eq_accumulate (data : Nat → Nat) (size k : Nat) (hk : k ≤ size)
    (hterm : IsTerminator (data k)) (hbefore : ∀ i, i < k → ¬ IsTerminator (data i)) :
    decodeTarOctal data size = accumulate data k 0 1 := by
  unfold decodeTarOctal
  rw [scanTerminator_first data (size + 1) k _ (by omega) hterm hbefore]
  congr 1
  omega

theorem toU64_digit (b : Nat) (h : IsOctalDigit b) : toU64 (ASCII_TO_NUMBER b) = b - 48 := by
  unfold IsOctalDigit at h
  unfold toU64 ASCII_TO_NUMBER
  omega

/-- The second loop over digits adds `mult` times their Horner value (mod `2^64`). -/
theorem accumulate_digits (data : Nat → Nat) (n sum j : Nat)
    (h : ∀ i, i < n → IsOctalDigit (data i)) :
    accumulate data n (sum % U64) (8 ^ j % U64)
      = (sum + octalValue data n * 8 ^ j) % U64 := by
  induction n generalizing sum j with
  | zero => simp [accumulate, octalValue]
  | succ n ih =>
    rw [accumulate, toU64_digit _ (h n (Nat.lt_succ_self n))]
    have e1 : (sum % U64 + (data n - 48) * (8 ^ j % U64)) % U64
        = (sum + (data n - 48) * 8 ^ j) % U64 := by
      simp [Nat.add_mod, Nat.mul_mod]
    have e2 : 8 ^ j % U64 * 8 % U64 = 8 ^ (j + 1) % U64 := by
      rw [pow_succ]; simp [Nat.mul_mod]
    rw [e1, e2, ih _ _ (fun i hi => h i (Nat.lt_succ_of_lt hi))]
    congr 1
    rw [octalValue, pow_succ]
    ring

theorem octalValue_lt (data : Nat → Nat) (n : Nat) (h : ∀ i, i < n → IsOctalDigit (data i)) :
    octalValue data n < 8 ^ n := by
  induction n with
  | zero => simp [octalValue]
  | succ n ih =>
    have h1 := ih (fun i hi => h i (Nat.lt_succ_of_lt hi))
    have h2 := h n (Nat.lt_succ_self n)
    unfold IsOctalDigit at h2
    rw [octalValue, pow_succ]
    omega

theorem digit_not_terminator (b : Nat) (h : IsOctalDigit b) : ¬ IsTerminator b := by
  unfold IsOctalDigit at h
  unfold IsTerminator
  omega

/-- Decoding `k` digits followed by a terminator, at any width that reaches the
terminator, gives their base-8 value modulo `2^64`. -/
theorem decodeTarOctal_digits (data : Nat → Nat) (size k : Nat) (hk : k ≤ size)
    (hdig : ∀ i, i < k → IsOctalDigit (data i)) (hterm : IsTerminator (data k)) :
    decodeTarOctal data size = octalValue data k % U64 := by
  rw [decodeTarOctal_eq_accumulate data size k hk hterm
    (fun i hi => digit_not_terminator _ (hdig i hi))]
  have := accumulate_digits data k 0 0 hdig
  simpa [U64] using this


/-! ## C1: digits followed by a terminator -/

set_option maxRecDepth 100000 in
/-- C1 (as stated, refuted): at width 23 the buffer of 22 digits `'7'` followed by
NUL meets the premises, its base-8 value is `8^22 - 1`, and the decoder returns
`2^64 - 1`. -/
theorem decodeTarOctal_sevens_wraps :
    (22 < 23 ∧ (∀ i, i < 22 → IsOctalDigit (sevens i)) ∧ IsTerminator (sevens 22)) ∧
    octalValue sevens 22 = 73786976294838206463 ∧
    decodeTarOctal sevens 23 = 18446744073709551615 ∧
    decodeTarOctal sevens 23 ≠ octalValue sevens 22 := by
  refine ⟨⟨by decide, by decide, by decide⟩, by decide, by decide, by decide⟩

/-- C1 (amended): for every width `w` and every buffer whose first `k < w` bytes are
digits `'0'..'7'` and whose byte `k` is NUL or space, whatever the other bytes
are, `decodeTarOctal` returns the base-8 value of those `k` digits (most
significant first) reduced modulo `2^64`, which is the value itself whenever it
is below `2^64`, in particular whenever `k ≤ 21`. -/
theorem decodeTarOctal_terminated_digits (data : Nat → Nat) (w k : Nat) (hk : k < w)
    (hdig : ∀ i, i < k → IsOctalDigit (data i)) (hterm : IsTerminator (data k)) :
    decodeTarOctal data w = octalValue data k % 2 ^ 64 ∧
    (octalValue data k < 2 ^ 64 → decodeTarOctal data w = octalValue data k) ∧
    (k ≤ 21 → decodeTarOctal data w = octalValue data k) := by
  have h := decodeTarOctal_digits data w k (Nat.le_of_lt hk) hdig hterm
  have hU : U64 = 2 ^ 64 := rfl
  rw [hU] at h
  refine ⟨h, fun hlt => by rw [h, Nat.mod_eq_of_lt hlt], fun hk21 => ?_⟩
  have h1 := octalValue_lt data k hdig
  have h2 : 8 ^ k ≤ 8 ^ 21 := Nat.pow_le_pow_right (by decide) hk21
  have h3 : (8 : Nat) ^ 21 < 2 ^ 64 := by decide
  rw [h, Nat.mod_eq_of_lt (by omega)]

/-- C1 (witness): the three buffers of the specification, `"0000000\0"`, `"0000012\0"`
and `"17 \0\0\0\0\0\0\0\0"`, decode to 0, 10 and 15. -/
theorem decodeTarOctal_terminated_digits_witness :
    decodeTarOctal (bytesFn [48, 48, 48, 48, 48, 48, 48, 0]) 8 = 0 ∧
    decodeTarOctal (bytesFn [48, 48, 48, 48, 48, 49, 50, 0]) 8 = 10 ∧
    decodeTarOctal (bytesFn [49, 55, 32, 0, 0, 0, 0, 0, 0, 0, 0]) 11 = 15 :=
  ⟨(decodeTarOctal_terminated_digits (bytesFn [48, 48, 48, 48, 48, 48, 48, 0]) 8 7
      (by decide) (by decide) (by decide)).2.2 (by decide),
   (decodeTarOctal_terminated_digits (bytesFn [48, 48, 48, 48, 48, 49, 50, 0]) 8 7
      (by decide) (by decide) (by decide)).2.2 (by decide),
   (decodeTarOctal_terminated_digits (bytesFn [49, 55, 32, 0, 0, 0, 0, 0, 0, 0, 0]) 11 2
      (by decide) (by decide) (by decide)).2.2 (by decide)⟩

/-! ## Lemmas on records -/

theorem drop_append_len (a b : List Nat) (n : Nat) (h : a.length = n) : (a ++ b).drop n = b := by
  subst h; exact List.drop_left a b

theorem take_append_len (a b : List Nat) (n : Nat) (h : a.length = n) : (a ++ b).take n = a := by
  subst h; exact List.take_left a b

theorem field_length (e : List Nat) (off len : Nat) (h : off + len ≤ e.length) :
    (field e off len).length = len := by
  simp [field]; omega

theorem getD_field (e : List Nat) (off len i : Nat) (hi : i < len) :
    (field e off len).getD i 0 = e.getD (off + i) 0 := by
  simp [field, List.getD_eq_getElem?_getD, List.getElem?_take, hi]

theorem poke_length (e src : List Nat) (off : Nat) (h : off + src.length ≤ e.length) :
    (poke e off src).length = e.length := by
  simp [poke]; omega

theorem field_poke (e src : List Nat) (off : Nat) (h : off ≤ e.length) :
    field (poke e off src) off src.length = src := by
  have h1 : (e.take off).length = off := by simp [h]
  unfold field poke
  rw [List.append_assoc]
  rw [drop_append_len _ _ off h1]
  exact List.take_left _ _

theorem poke_poke (e a b : List Nat) (off : Nat) (h : off ≤ e.length) (hab : a.length = b.length) :
    poke (poke e off a) off b = poke e off b := by
  have h1 : (e.take off).length = off := by simp [h]
  unfold poke
  congr 1
  · congr 1
    rw [List.append_assoc, List.take_append_of_le_length (by omega)]
    simp [h]
  · rw [List.append_assoc, ← hab]
    have : off + a.length = (List.take off e ++ a).length := by simp [h]
    rw [← List.append_assoc, this, List.drop_left]

theorem sumLoop_eq_sum (f : Nat → Int) (e : List Nat) (n : Nat) (h : n ≤ e.length) :
    sumLoop f e n = ((e.take n).map f).sum := by
  induction n with
  | zero => simp [sumLoop]
  | succ n ih =>
    have hn : n < e.length := by omega
    have h1 : e.take (n + 1) = e.take n ++ [e[n]] := by
      rw [List.take_succ, List.getElem?_eq_getElem hn]; rfl
    have h2 : e.getD n 0 = e[n] := by
      rw [List.getD_eq_getElem?_getD, List.getElem?_eq_getElem hn]; rfl
    rw [sumLoop, ih (by omega), h1, h2, List.map_append, List.sum_append]
    simp

/-! ## Lemmas on the checksum -/

theorem accumulate_lt (data : Nat → Nat) (n sum mult : Nat) (h : sum < U64) :
    accumulate data n sum mult < U64 := by
  induction n generalizing sum mult with
  | zero => exact h
  | succ n ih => exact ih _ _ (Nat.mod_lt _ (by decide))

theorem decodeTarOctal_lt (data : Nat → Nat) (size : Nat) : decodeTarOctal data size < 2 ^ 64 :=
  accumulate_lt data _ 0 1 (by decide)

theorem exists_first_terminator (data : Nat → Nat) (k : Nat) (h : IsTerminator (data k)) :
    ∃ j, j ≤ k ∧ IsTerminator (data j) ∧ ∀ i, i < j → ¬ IsTerminator (data i) := by
  classical
  have hex : ∃ j, IsTerminator (data j) := ⟨k, h⟩
  exact ⟨Nat.find hex, Nat.find_min' hex h, Nat.find_spec hex, fun i hi => Nat.find_min hex hi⟩

/-- Two buffers that agree up to and including a terminator decode alike, at any
two widths that reach the terminator. -/
theorem decodeTarOctal_congr (d1 d2 : Nat → Nat) (s1 s2 k : Nat) (h1 : k ≤ s1) (h2 : k ≤ s2)
    (hterm : IsTerminator (d1 k)) (heq : ∀ i, i ≤ k → d1 i = d2 i) :
    decodeTarOctal d1 s1 = decodeTarOctal d2 s2 := by
  obtain ⟨j, hjk, hj, hmin⟩ := exists_first_terminator d1 k hterm
  have hj2 : IsTerminator (d2 j) := by rw [← heq j hjk]; exact hj
  have hmin2 : ∀ i, i < j → ¬ IsTerminator (d2 i) := by
    intro i hi; rw [← heq i (by omega)]; exact hmin i hi
  rw [decodeTarOctal_eq_accumulate d1 s1 j (by omega) hj hmin,
    decodeTarOctal_eq_accumulate d2 s2 j (by omega) hj2 hmin2]
  exact accumulate_congr d1 d2 j 0 1 (fun i hi => heq i (by omega))

theorem checkChecksum_eq (stack : Nat → Nat) (h : List Nat) (hlen : h.length = 512) :
    checkChecksum stack h =
      (decodeTarOctal (memAt (field h 148 8) stack) 12 == toU64 (unsignedByteSum (spaced h)) ||
       decodeTarOctal (memAt (field h 148 8) stack) 12 == toU64 (signedByteSum (spaced h))) := by
  have hl : (spaced h).length = 512 := by
    unfold spaced; rw [poke_length _ _ _ (by simp [hlen]), hlen]
  unfold checkChecksum checkChecksumRun unsignedByteSum signedByteSum
  simp only []
  rw [show poke h 148 (List.replicate 8 32) = spaced h from rfl]
  rw [sumLoop_eq_sum _ _ _ (le_of_eq hl.symm), sumLoop_eq_sum _ _ _ (le_of_eq hl.symm)]
  have : List.take 512 (spaced h) = spaced h := by
    rw [← hl]; exact List.take_length _
  rw [this]

theorem memAt_field_checksum (stack : Nat → Nat) (h : List Nat) (hlen : h.length = 512)
    (i : Nat) (hi : i < 8) : memAt (field h 148 8) stack i = h.getD (148 + i) 0 := by
  unfold memAt
  rw [field_length h 148 8 (by omega), if_pos hi]
  exact getD_field h 148 8 i hi

theorem unsignedByteSum_bounds (l : List Nat) (hb : ∀ b, b ∈ l → b < 256) :
    0 ≤ unsignedByteSum l ∧ unsignedByteSum l ≤ 255 * l.length := by
  induction l with
  | nil => simp [unsignedByteSum]
  | cons a l ih =>
    have h1 := ih (fun b hb1 => hb b (List.mem_cons_of_mem a hb1))
    have h2 := hb a (List.mem_cons_self a l)
    unfold unsignedByteSum at h1 ⊢
    simp only [List.map_cons, List.sum_cons, List.length_cons]
    push_cast
    omega

theorem signedByteSum_bounds (l : List Nat) (hb : ∀ b, b ∈ l → b < 256) :
    -(128 * (l.length : Int)) ≤ signedByteSum l ∧ signedByteSum l ≤ 127 * l.length := by
  induction l with
  | nil => simp [signedByteSum]
  | cons a l ih =>
    have h1 := ih (fun b hb1 => hb b (List.mem_cons_of_mem a hb1))
    have h2 := hb a (List.mem_cons_self a l)
    unfold signedByteSum at h1 ⊢
    simp only [List.map_cons, List.sum_cons, List.length_cons]
    have h3 : -128 ≤ signedChar a ∧ signedChar a ≤ 127 := by
      unfold signedChar; split <;> omega
    push_cast
    omega

theorem spaced_bytes (h : List Nat) (hb : ∀ b, b ∈ h → b < 256) :
    ∀ b, b ∈ spaced h → b < 256 := by
  intro b hmem
  unfold spaced poke at hmem
  rw [List.mem_append, List.mem_append] at hmem
  rcases hmem with (h1 | h1) | h1
  · exact hb b (List.mem_of_mem_take h1)
  · rw [List.mem_replicate] at h1; omega
  · exact hb b (List.mem_of_mem_drop h1)

theorem spaced_length (h : List Nat) (hlen : h.length = 512) : (spaced h).length = 512 := by
  unfold spaced; rw [poke_length _ _ _ (by simp [hlen]), hlen]

/-! ## C2: what `checkChecksum` decides -/

/-- With a terminator among its 8 bytes, the copy of the checksum field decodes (at
width 12, next to any stack contents) like the field in place at width 8. -/
theorem reference_eq_checksumDecode8 (stack : Nat → Nat) (h : List Nat) (hlen : h.length = 512)
    (hterm : ChecksumTerminated h) :
    decodeTarOctal (memAt (field h 148 8) stack) 12 = checksumDecode8 h := by
  obtain ⟨k, hk, hk2⟩ := hterm
  unfold checksumDecode8
  refine decodeTarOctal_congr _ _ 12 8 k (by omega) (by omega) ?_ ?_
  · rw [memAt_field_checksum stack h hlen k hk]; exact hk2
  · intro i hi
    exact memAt_field_checksum stack h hlen i (by omega)

set_option maxRecDepth 1000000 in
/-- C2 (as stated, refuted): (1) the record `slashHeader` has signed sum `-1`, its
checksum field `"/"` decodes to `2^64 - 1`, which equals neither sum, yet
`checkChecksum` returns true (the comparison is made in `uint64_t`);
(2) for the record `eightDigitHeader`, whose checksum field has no terminator,
the result changes with the stack bytes that follow the local copy of the field,
so it is not a function of the record. -/
theorem checkChecksum_not_iff_sums :
    (slashHeader.length = 512 ∧ (∀ b, b ∈ slashHeader → b < 256) ∧
      checkChecksum (bytesFn []) slashHeader = true ∧ ¬ ChecksumAgrees slashHeader) ∧
    (eightDigitHeader.length = 512 ∧ (∀ b, b ∈ eightDigitHeader → b < 256) ∧
      checkChecksum (bytesFn []) eightDigitHeader = true ∧
      checkChecksum (bytesFn [49]) eightDigitHeader = false) := by
  have h1 : slashHeader.length = 512 := by decide!
  have h2 : eightDigitHeader.length = 512 := by decide!
  refine ⟨⟨h1, by decide!, ?_, by decide!⟩, ⟨h2, by decide!, ?_, ?_⟩⟩
  · rw [checkChecksum_eq _ _ h1]; decide!
  · rw [checkChecksum_eq _ _ h2]; decide!
  · rw [checkChecksum_eq _ _ h2]; decide!

/-- C2 (amended): for every 512-byte record whose 8-byte checksum field holds a NUL
or a space, and whatever lies on the stack, `checkChecksum` returns true if and
only if the octal decode (width 8) of the checksum field equals, as a `uint64_t`
value, the unsigned or the signed sum of the 512 bytes with the checksum bytes
taken as spaces: it equals the unsigned sum, or the signed sum, or the signed
sum plus `2^64` (a negative signed sum converted to `uint64_t`). -/
theorem checkChecksum_iff (stack : Nat → Nat) (h : List Nat) (hlen : h.length = 512)
    (hb : ∀ b, b ∈ h → b < 256) (hterm : ChecksumTerminated h) :
    checkChecksum stack h = true ↔
      ((checksumDecode8 h : Int) = unsignedByteSum (spaced h) ∨
       (checksumDecode8 h : Int) = signedByteSum (spaced h) ∨
       (checksumDecode8 h : Int) = signedByteSum (spaced h) + 2 ^ 64) := by
  rw [checkChecksum_eq stack h hlen, reference_eq_checksumDecode8 stack h hlen hterm]
  have hd : checksumDecode8 h < 2 ^ 64 := decodeTarOctal_lt _ _
  have hu := unsignedByteSum_bounds (spaced h) (spaced_bytes h hb)
  have hs := signedByteSum_bounds (spaced h) (spaced_bytes h hb)
  rw [spaced_length h hlen] at hu hs
  simp only [Bool.or_eq_true, beq_iff_eq]
  unfold toU64
  generalize checksumDecode8 h = d at *
  generalize unsignedByteSum (spaced h) = u at *
  generalize signedByteSum (spaced h) = s at *
  push_cast at hu hs
  omega

set_option maxRecDepth 1000000 in
/-- C2 (witness): the record `plainHeader` (checksum field `"000400"`, NUL, space, sum
256) meets the premises and is accepted, whatever the stack holds. -/
theorem checkChecksum_iff_witness :
    plainHeader.length = 512 ∧ (∀ b, b ∈ plainHeader → b < 256) ∧
    ChecksumTerminated plainHeader ∧
    ∀ stack, checkChecksum stack plainHeader = true :=
  ⟨by decide!, by decide!, by decide!, fun stack =>
    (checkChecksum_iff stack plainHeader (by decide!) (by decide!) (by decide!)).mpr
      (Or.inl (by decide!))⟩

/-! ## C3: writing the checksum and checking it -/

theorem octalDigits_length (c d : Nat) : (octalDigits c d).length = d := by
  induction d generalizing c with
  | zero => rfl
  | succ d ih => simp [octalDigits, ih]

theorem octalValue_congr (d1 d2 : Nat → Nat) (k : Nat) (h : ∀ i, i < k → d1 i = d2 i) :
    octalValue d1 k = octalValue d2 k := by
  induction k with
  | zero => rfl
  | succ k ih =>
    rw [octalValue, octalValue, h k (Nat.lt_succ_self k), ih (fun i hi => h i (Nat.lt_succ_of_lt hi))]

theorem getD_append_left (a b : List Nat) (i : Nat) (h : i < a.length) :
    (a ++ b).getD i 0 = a.getD i 0 := by
  simp [List.getD_eq_getElem?_getD, List.getElem?_append_left h]

theorem getD_append_right (a b : List Nat) (i : Nat) (h : a.length ≤ i) :
    (a ++ b).getD i 0 = b.getD (i - a.length) 0 := by
  simp [List.getD_eq_getElem?_getD, List.getElem?_append_right h]

theorem octalDigits_isDigit (c d i : Nat) (hi : i < d) :
    IsOctalDigit ((octalDigits c d).getD i 0) := by
  induction d generalizing c with
  | zero => omega
  | succ d ih =>
    rw [octalDigits]
    by_cases h : i < d
    · rw [getD_append_left _ _ _ (by rw [octalDigits_length]; exact h)]
      exact ih (c / 8) h
    · have hid : i = d := by omega
      subst hid
      rw [getD_append_right _ _ _ (by rw [octalDigits_length]), octalDigits_length]
      unfold IsOctalDigit
      simp
      omega

/-- Reading back `d` zero-padded octal digits of `c` gives `c` modulo `8^d`. -/
theorem octalValue_octalDigits (data : Nat → Nat) (c d : Nat)
    (h : ∀ i, i < d → data i = (octalDigits c d).getD i 0) :
    octalValue data d = c % 8 ^ d := by
  induction d generalizing c with
  | zero => simp [octalValue, Nat.mod_one]
  | succ d ih =>
    have h1 : ∀ i, i < d → data i = (octalDigits (c / 8) d).getD i 0 := by
      intro i hi
      rw [h i (by omega), octalDigits, getD_append_left _ _ _ (by rw [octalDigits_length]; exact hi)]
    have h2 : data d = 48 + c % 8 := by
      rw [h d (by omega), octalDigits, getD_append_right _ _ _ (by rw [octalDigits_length]),
        octalDigits_length]
      simp
    rw [octalValue, ih (c / 8) h1, h2, pow_succ, Nat.mul_comm (8 ^ d) 8, Nat.mod_mul]
    omega

theorem checksumField_length (c d : Nat) (hd : d ≤ 7) : (checksumField c d).length = 8 := by
  unfold checksumField
  simp [octalDigits_length]
  omega

theorem computeChecksum_lt (h : List Nat) (hlen : h.length = 512) (hb : ∀ b, b ∈ h → b < 256) :
    computeChecksum h < 8 ^ 6 := by
  have hu := unsignedByteSum_bounds (spaced h) (spaced_bytes h hb)
  rw [spaced_length h hlen] at hu
  unfold computeChecksum
  push_cast at hu
  have : (8 : Nat) ^ 6 = 262144 := by norm_num
  omega

theorem checkChecksum_writeChecksum_aux (stack : Nat → Nat) (h : List Nat) (d : Nat)
    (hlen : h.length = 512) (hb : ∀ b, b ∈ h → b < 256) (hd : d ≤ 7)
    (hfit : computeChecksum h < 8 ^ d) :
    checkChecksum stack (writeChecksum h d) = true := by
  have hfl := checksumField_length (computeChecksum h) d hd
  have hl2 : (writeChecksum h d).length = 512 := by
    unfold writeChecksum; rw [poke_length _ _ _ (by rw [hfl, hlen]; decide), hlen]
  have hsp : spaced (writeChecksum h d) = spaced h := by
    unfold spaced writeChecksum
    exact poke_poke h _ _ 148 (by omega) (by rw [hfl]; rfl)
  have hfield : field (writeChecksum h d) 148 8 = checksumField (computeChecksum h) d := by
    unfold writeChecksum
    have := field_poke h (checksumField (computeChecksum h) d) 148 (by omega)
    rw [hfl] at this
    exact this
  have hdl := octalDigits_length (computeChecksum h) d
  have hmem : ∀ i, i < d → memAt (checksumField (computeChecksum h) d) stack i
      = (octalDigits (computeChecksum h) d).getD i 0 := by
    intro i hi
    unfold memAt
    rw [hfl, if_pos (by omega)]
    unfold checksumField
    rw [List.append_assoc, getD_append_left _ _ _ (by omega)]
  have hterm : memAt (checksumField (computeChecksum h) d) stack d = 0 := by
    unfold memAt
    rw [hfl, if_pos (by omega)]
    unfold checksumField
    rw [List.append_assoc, getD_append_right _ _ _ (by omega), hdl]
    simp
  have hdec : decodeTarOctal (memAt (field (writeChecksum h d) 148 8) stack) 12
      = computeChecksum h := by
    rw [hfield, decodeTarOctal_digits _ 12 d (by omega)
      (fun i hi => by rw [hmem i hi]; exact octalDigits_isDigit _ _ _ hi) (Or.inl hterm),
      octalValue_octalDigits _ _ _ hmem, Nat.mod_eq_of_lt hfit]
    have h7 : 8 ^ d ≤ 8 ^ 7 := Nat.pow_le_pow_right (by decide) hd
    have : (8 : Nat) ^ 7 < U64 := by decide
    exact Nat.mod_eq_of_lt (by omega)
  have hu := unsignedByteSum_bounds (spaced h) (spaced_bytes h hb)
  have hto : toU64 (unsignedByteSum (spaced h)) = computeChecksum h := by
    rw [spaced_length h hlen] at hu
    unfold toU64 computeChecksum
    push_cast at hu
    omega
  rw [checkChecksum_eq _ _ hl2, hdec, hsp, hto]
  simp

/-- C3: for every 512-byte record `h`, with `c` the unsigned byte sum of `h` with its
checksum field taken as 8 spaces, and for every number of digits `d ≤ 7` that
holds `c` (6 and 7 always do), the record with its checksum field overwritten
by `c` written as `d` zero-padded octal digits, a NUL and spaces passes
`checkChecksum`, whatever lies on the stack. -/
theorem checkChecksum_writeChecksum (stack : Nat → Nat) (h : List Nat) (d : Nat)
    (hlen : h.length = 512) (hb : ∀ b, b ∈ h → b < 256) (hd : d ≤ 7)
    (hfit : 6 ≤ d ∨ computeChecksum h < 8 ^ d) :
    checkChecksum stack (writeChecksum h d) = true := by
  refine checkChecksum_writeChecksum_aux stack h d hlen hb hd ?_
  rcases hfit with h6 | hfit
  · have h1 := computeChecksum_lt h hlen hb
    have h2 : 8 ^ 6 ≤ 8 ^ d := Nat.pow_le_pow_right (by decide) h6
    omega
  · exact hfit

set_option maxRecDepth 1000000 in
/-- C3 (witness): the all-NUL record, written with 6 digits, NUL, space, has the
checksum field `"000400\0 "` and passes. -/
theorem checkChecksum_writeChecksum_witness :
    (List.replicate 512 0).length = 512 ∧ (∀ b, b ∈ List.replicate 512 0 → b < 256) ∧
    field (writeChecksum (List.replicate 512 0) 6) 148 8 = [48, 48, 48, 52, 48, 48, 0, 32] ∧
    ∀ stack, checkChecksum stack (writeChecksum (List.replicate 512 0) 6) = true :=
  ⟨by decide!, by decide!, by decide!, fun stack =>
    checkChecksum_writeChecksum stack (List.replicate 512 0) 6 (by decide!) (by decide!)
      (by decide) (Or.inl (by decide))⟩

/-! ## C4: `ARC_CheckFile` -/

theorem localEntry_full (junk : Nat → Nat) (got : List Nat) (h : got.length = 512) :
    localEntry junk got = got := by
  unfold localEntry
  rw [h]
  simp

theorem Read_openFile (a : List Nat) (n : Nat) : (Read (openFile a) n).1 = a.take n := by
  simp [Read, openFile]

theorem field_take (a : List Nat) (off len n : Nat) (h : off + len ≤ n) :
    field (a.take n) off len = field a off len := by
  unfold field
  rw [List.drop_take, List.take_take]
  congr 1
  omega

/-- C4: for every archive of at least 512 bytes, `ARC_CheckFile` (called on the
freshly opened byte source) returns true if and only if the 5 bytes at offsets
257..261 are `"ustar"` and `checkChecksum` holds for the first 512-byte block;
in particular a block whose magic differs from `"ustar"` is rejected whatever
its checksum. -/
theorem ARC_CheckFile_iff (E : Env) (a : List Nat) (hlen : 512 ≤ a.length) :
    ((ARC_CheckFile E (openFile a)).1 = true ↔
      (field a 257 5 = ustarMagic ∧ checkChecksum E.stack (a.take 512) = true)) ∧
    (field a 257 5 ≠ ustarMagic → (ARC_CheckFile E (openFile a)).1 = false) := by
  have h1 : (a.take 512).length = 512 := by simp [hlen]
  have h2 : (ARC_CheckFile E (openFile a)).1
      = (isUSTAR (a.take 512) && checkChecksum E.stack (a.take 512)) := by
    unfold ARC_CheckFile
    simp only []
    rw [Read_openFile, localEntry_full _ _ h1]
  have h3 : isUSTAR (a.take 512) = true ↔ field a 257 5 = ustarMagic := by
    unfold isUSTAR ustarMagic
    rw [field_take a 257 5 512 (by decide)]
    simp
  rw [h2]
  constructor
  · rw [Bool.and_eq_true, h3]
  · intro hne
    have : isUSTAR (a.take 512) = false := by
      rw [← Bool.not_eq_true, h3]; exact hne
    rw [this]; rfl

set_option maxRecDepth 1000000 in
/-- C4 (witness): an archive made of one USTAR header for `"a"` with a correct
checksum is at least 512 bytes long and is accepted. -/
theorem ARC_CheckFile_iff_witness :
    512 ≤ (mkHeader [97] 0).length ∧
    (ARC_CheckFile env32 (openFile (mkHeader [97] 0))).1 = true :=
  ⟨by decide!, ((ARC_CheckFile_iff env32 (mkHeader [97] 0) (by decide!)).1).mpr
    ⟨by decide!, by
      have h : ((mkHeader [97] 0).take 512).length = 512 := by decide!
      rw [checkChecksum_eq _ _ h]; decide!⟩⟩

/-! ## Lemmas on the byte source and on one step of a walk -/

theorem Seek_fst (f : XMPFILE) (pos : Nat) : (Seek f pos).1 = decide (pos ≤ f.bytes.length) := by
  unfold Seek; split <;> simp [*]

theorem Seek_bytes (f : XMPFILE) (pos : Nat) : (Seek f pos).2.bytes = f.bytes := by
  unfold Seek; split <;> rfl

theorem Seek_cursor (f : XMPFILE) (pos : Nat) (h : pos ≤ f.bytes.length) :
    (Seek f pos).2.cursor = pos := by
  unfold Seek; rw [if_pos h]

theorem Read_fst (f : XMPFILE) (n : Nat) : (Read f n).1 = (f.bytes.drop f.cursor).take n := rfl

theorem Read_bytes (f : XMPFILE) (n : Nat) : (Read f n).2.bytes = f.bytes := rfl

/-- Seeking to the end of `pre` and reading `n` bytes delivers the `n` bytes that
follow `pre`. -/
theorem seek_read (f : XMPFILE) (pre blk more : List Nat) (n : Nat)
    (hb : f.bytes = pre ++ (blk ++ more)) (hn : blk.length = n) :
    (Seek f pre.length).1 = true ∧ (Read (Seek f pre.length).2 n).1 = blk := by
  have hle : pre.length ≤ f.bytes.length := by rw [hb]; simp
  refine ⟨by rw [Seek_fst]; exact decide_eq_true hle, ?_⟩
  rw [Read_fst, Seek_bytes, Seek_cursor f _ hle, hb, List.drop_left, take_append_len _ _ n hn]

theorem toDWORD_natCast (n : Nat) (h : n < 2 ^ 32) : toDWORD (n : Int) = n := by
  unfold toDWORD; omega

theorem wrapInt_id (x : Int) (h1 : -(2 ^ 31) ≤ x) (h2 : x < 2 ^ 31) : wrapInt x = x := by
  unfold wrapInt; omega

theorem getFileSize_ok (E : Env) (x : TarEntry) (hs : SizeFieldOk x) (hlt : x.data.length < 2 ^ 32) :
    getFileSize E x.header = x.data.length := by
  obtain ⟨k, hk, hdig, hterm, hval⟩ := hs
  unfold getFileSize
  rw [decodeTarOctal_digits _ 12 k (by omega) hdig hterm, hval]
  unfold toSizeT U64
  split <;> omega

theorem entryBytes_length (x : TarEntry) (h : x.header.length = 512) :
    (entryBytes x).length = 512 + 512 * ((x.data.length + 511) / 512) := by
  unfold entryBytes padLen
  simp only [List.length_append, List.length_replicate, h]
  omega

theorem advance_ok (E : Env) (e : List Nat) (pos s : Nat) (hs : getFileSize E e = s)
    (hlt : pos + (512 + 512 * ((s + 511) / 512)) < 2 ^ 31) :
    advance E e (pos : Int) = ((pos + (512 + 512 * ((s + 511) / 512)) : Nat) : Int) := by
  unfold advance blockCount
  rw [hs, if_pos (by omega)]
  unfold wrapInt
  push_cast
  omega

/-! ## Lemmas on the list buffer -/

theorem takeWhile_append_nul (l : List Nat) :
    (l ++ [0]).takeWhile (fun b => b != 0) = l.takeWhile (fun b => b != 0) ∧
    (l ++ [0]).take ((l.takeWhile (fun b => b != 0)).length + 1)
      = l.takeWhile (fun b => b != 0) ++ [0] := by
  induction l with
  | nil => simp
  | cons a l ih =>
    by_cases ha : a = 0
    · subst ha; simp
    · simp [List.takeWhile_cons, ha, ih.1, ih.2]

theorem namesBytes_append (acc : List (List Nat)) (n : List Nat) :
    namesBytes (acc ++ [n]) = namesBytes acc ++ (n ++ [0]) := by
  induction acc with
  | nil => simp [namesBytes]
  | cons a acc ih => simp [namesBytes, ih]

theorem encodeNames_take (acc : List (List Nat)) :
    ((encodeNames acc).getD []).take (namesBytes acc).length = namesBytes acc := by
  unfold encodeNames
  split
  · next h => subst h; simp [namesBytes]
  · simp

theorem appendName_spec (acc : List (List Nat)) (e : List Nat) :
    appendName (encodeNames acc) (namesBytes acc).length e
      = (namesBytes (acc ++ [recordName e]) ++ [0], (namesBytes (acc ++ [recordName e])).length) := by
  unfold appendName strlen
  simp only []
  rw [encodeNames_take, (takeWhile_append_nul (e.take 100)).1, (takeWhile_append_nul (e.take 100)).2,
    namesBytes_append]
  unfold recordName
  simp [List.append_assoc]
  omega

/-! ## The listing walk over a sequence of blocks -/

theorem listedNames_single (x : TarEntry) :
    listedNames [x] = if x.header.getD 0 0 ≠ 0 then [recordName x.header] else [] := by
  simp [listedNames]

theorem listedNames_cons (x : TarEntry) (xs : List TarEntry) :
    listedNames (x :: xs) = listedNames [x] ++ listedNames xs := by
  simp only [listedNames]
  split <;> simp

/-- One pass of the listing loop over a walkable block. -/
theorem listBody_block (E : Env) (max : Int) (s : ListState) (a pre rest : List Nat)
    (x : TarEntry) (acc : List (List Nat)) (ha : a = pre ++ (entryBytes x ++ rest))
    (hw : Walkable x) (hT : a.length < 2 ^ 31) (hinv : ListInv a pre acc s) :
    ListInv a (pre ++ entryBytes x) (acc ++ listedNames [x]) (listBody E max s).1 ∧
    (listBody E max s).2
      = decide ((((pre ++ entryBytes x).length : Nat) : Int) < max ∧
          (((pre ++ entryBytes x).length : Nat) : Int) > 0) := by
  obtain ⟨hbytes, hpos, hfl, hp⟩ := hinv
  obtain ⟨hlen, hsz⟩ := hw
  have hel := entryBytes_length x hlen
  have hal : a.length = pre.length + ((entryBytes x).length + rest.length) := by
    rw [ha]; simp
  have hb2 : s.file.bytes = pre ++ (x.header ++ ((x.data ++ List.replicate (padLen x.data.length) 0) ++ rest)) := by
    rw [hbytes, ha]; unfold entryBytes; simp
  obtain ⟨hseek, hread⟩ := seek_read s.file pre x.header _ 512 hb2 hlen
  have hdw : toDWORD s.pos = pre.length := by
    rw [hpos]; exact toDWORD_natCast _ (by omega)
  have hgs : getFileSize E x.header = x.data.length := getFileSize_ok E x hsz (by omega)
  have hadv : advance E x.header s.pos = (((pre ++ entryBytes x).length : Nat) : Int) := by
    rw [hpos, advance_ok E x.header pre.length x.data.length hgs (by omega), List.length_append, hel]
  unfold listBody
  simp only [hdw, hseek, hread, hlen, localEntry_full _ _ hlen, hadv]
  simp only [Bool.true_eq_false, if_false, OfNat.ofNat_ne_zero]
  refine ⟨⟨?_, rfl, ?_, ?_⟩, trivial⟩
  · show (Read (Seek s.file pre.length).2 512).2.bytes = a
    rw [Read_bytes, Seek_bytes, hbytes]
  · show (if x.header.getD 0 0 ≠ 0 then some (appendName s.fl s.p x.header).1 else s.fl) = _
    rw [listedNames_single, hfl, hp, appendName_spec]
    split
    · simp [encodeNames]
    · simp
  · show (if x.header.getD 0 0 ≠ 0 then (appendName s.fl s.p x.header).2 else s.p) = _
    rw [listedNames_single, hfl, hp, appendName_spec]
    split
    · rfl
    · simp

theorem archiveBody_length_pos (bs : List TarEntry) (hbs : ∀ x, x ∈ bs → Walkable x)
    (hne : bs ≠ []) : 0 < (archiveBody bs).length := by
  cases bs with
  | nil => exact absurd rfl hne
  | cons x xs =>
    have := entryBytes_length x (hbs x (List.mem_cons_self x xs)).1
    simp only [archiveBody, List.length_append]
    omega

/-- The listing loop over a non-empty sequence of walkable blocks leaves with the
names of the blocks whose first name byte is not NUL appended to the buffer. -/
theorem listLoop_blocks (E : Env) (a : List Nat) (bs : List TarEntry)
    (hbs : ∀ x, x ∈ bs → Walkable x) (hT : a.length < 2 ^ 31) (pre : List Nat)
    (acc : List (List Nat)) (s : ListState) (fuel : Nat) (ha : a = pre ++ archiveBody bs)
    (hne : bs ≠ []) (hinv : ListInv a pre acc s) (hfuel : bs.length ≤ fuel) :
    ∃ s1, listLoop E (a.length : Int) fuel s = some s1 ∧
      s1.fl = encodeNames (acc ++ listedNames bs) := by
  induction bs generalizing pre acc s fuel with
  | nil => exact absurd rfl hne
  | cons x xs ih =>
    cases fuel with
    | zero => simp at hfuel
    | succ fuel =>
      have hw := hbs x (List.mem_cons_self x xs)
      have hstep := listBody_block E (a.length : Int) s a pre (archiveBody xs) x acc
        (by rw [ha]; rfl) hw hT hinv
      obtain ⟨hinv1, hcont⟩ := hstep
      have hel := entryBytes_length x hw.1
      rw [listLoop, hcont]
      by_cases hxs : xs = []
      · subst hxs
        have hend : (pre ++ entryBytes x).length = a.length := by
          rw [ha]; simp [archiveBody]
        rw [hend]
        simp only [lt_self_iff_false, false_and, decide_False, Bool.false_eq_true, if_false]
        exact ⟨_, rfl, by rw [hinv1.2.2.1]⟩
      · have hpos := archiveBody_length_pos xs (fun y hy => hbs y (List.mem_cons_of_mem x hy)) hxs
        have hlt : (pre ++ entryBytes x).length < a.length := by
          rw [ha]; simp only [archiveBody, List.length_append]; omega
        have hgt : 0 < (pre ++ entryBytes x).length := by
          simp only [List.length_append]; omega
        have hc : decide ((((pre ++ entryBytes x).length : Nat) : Int) < (a.length : Int) ∧
            (((pre ++ entryBytes x).length : Nat) : Int) > 0) = true := by
          apply decide_eq_true
          constructor <;> omega
        rw [hc, if_pos rfl]
        obtain ⟨s1, h1, h2⟩ := ih (fun y hy => hbs y (List.mem_cons_of_mem x hy))
          (pre ++ entryBytes x) (acc ++ listedNames [x]) (listBody E (a.length : Int) s).1 fuel
          (by rw [ha]; simp [archiveBody]) hxs hinv1 (by simpa using hfuel)
        exact ⟨s1, h1, by rw [h2, listedNames_cons x xs, List.append_assoc]⟩

/-! ## C5: listing a well-formed archive -/

theorem getD_replicate_zero (n i : Nat) : (List.replicate n 0).getD i 0 = 0 := by
  induction n generalizing i with
  | zero => rfl
  | succ n ih =>
    cases i with
    | zero => rfl
    | succ i => rw [List.replicate_succ]; exact ih i

theorem zeroBlock_walkable : Walkable zeroBlock := by
  refine ⟨List.length_replicate 512 0, 0, by decide,
    fun i hi => absurd hi (Nat.not_lt_zero i), ?_, rfl⟩
  left
  exact getD_replicate_zero 512 124

theorem blocks_walkable (es : List TarEntry) (z : Nat) (hes : ∀ x, x ∈ es → WellFormedEntry x) :
    ∀ x, x ∈ es ++ List.replicate z zeroBlock → Walkable x := by
  intro x hx
  rcases List.mem_append.mp hx with h | h
  · exact (hes x h).1
  · rw [(List.mem_replicate.mp h).2]; exact zeroBlock_walkable

theorem listedNames_zeroBlocks (z : Nat) : listedNames (List.replicate z zeroBlock) = [] := by
  induction z with
  | zero => rfl
  | succ z ih =>
    have h0 : zeroBlock.header.getD 0 0 = 0 := getD_replicate_zero 512 0
    rw [List.replicate_succ, listedNames, ih, if_neg (by rw [h0]; exact fun h => h rfl)]

theorem listedNames_wellFormed (es : List TarEntry) (z : Nat)
    (hes : ∀ x, x ∈ es → WellFormedEntry x) :
    listedNames (es ++ List.replicate z zeroBlock) = es.map (fun x => recordName x.header) := by
  induction es with
  | nil => simpa using listedNames_zeroBlocks z
  | cons x xs ih =>
    have hx := (hes x (List.mem_cons_self x xs)).2
    rw [List.cons_append, listedNames, if_pos hx, ih (fun y hy => hes y (List.mem_cons_of_mem x hy))]
    rfl

theorem GetSize_openFile (a : List Nat) (h : a.length < 2 ^ 31) :
    wrapInt ((GetSize (openFile a)).1 : Int) = (a.length : Int) ∧
    (GetSize (openFile a)).2.bytes = a := by
  refine ⟨?_, rfl⟩
  unfold GetSize openFile wrapInt
  simp only []
  omega

theorem listLoop_empty (E : Env) (max : Int) (s : ListState) (fuel : Nat) (h : s.file.bytes = [])
    (hpos : s.pos = 0) :
    listLoop E max (fuel + 1) s = some { s with file := (Read (Seek s.file 0).2 512).2 } := by
  have h1 : toDWORD s.pos = 0 := by rw [hpos]; rfl
  have h2 : (Seek s.file 0).1 = true := by rw [Seek_fst]; simp
  have h3 : (Read (Seek s.file 0).2 512).1 = [] := by
    rw [Read_fst, Seek_bytes, h]; simp
  rw [listLoop]
  unfold listBody
  simp [h1, h2, h3]

set_option maxRecDepth 1000000 in
/-- C5 (as stated, refuted): the archive made of two all-zero blocks is well formed
with no entry; `ARC_GetFileList` returns `NULL`, not a buffer that holds the one
closing NUL. -/
theorem ARC_GetFileList_no_entry_null :
    (archiveOf [] 2).length = 1024 ∧
    (ARC_GetFileList env32 3 (openFile (archiveOf [] 2))).map Prod.fst = some none ∧
    (ARC_GetFileList env32 3 (openFile (archiveOf [] 2))).map Prod.fst ≠ some (some [0]) := by
  refine ⟨by decide!, by decide!, by decide!⟩

/-- The listing of a well-formed archive, given fuel for `n + z + 1` iterations,
is the buffer for the names of its members. -/
theorem ARC_GetFileList_names (E : Env) (es : List TarEntry) (z fuel : Nat)
    (hes : ∀ x, x ∈ es → WellFormedEntry x) (hT : (archiveOf es z).length < 2 ^ 31)
    (hfuel : es.length + z + 1 ≤ fuel) :
    (ARC_GetFileList E fuel (openFile (archiveOf es z))).map Prod.fst
      = some (encodeNames (es.map (fun x => recordName x.header))) := by
  obtain ⟨hsz, hby⟩ := GetSize_openFile (archiveOf es z) hT
  unfold ARC_GetFileList
  simp only [hsz]
  by_cases hne : es ++ List.replicate z zeroBlock = []
  · have he : es = [] := (List.append_eq_nil.mp hne).1
    obtain ⟨f1, hf1⟩ : ∃ f1, fuel = f1 + 1 := ⟨fuel - 1, by omega⟩
    have ha : archiveOf es z = [] := by unfold archiveOf; rw [hne]; rfl
    rw [hf1, listLoop_empty E _ _ f1 (by rw [hby, ha]) rfl, he]
    rfl
  · obtain ⟨s1, h1, h2⟩ := listLoop_blocks E (archiveOf es z) (es ++ List.replicate z zeroBlock)
      (blocks_walkable es z hes) hT [] []
      { pos := 0, fl := none, p := 0, file := (GetSize (openFile (archiveOf es z))).2, it := 0 }
      fuel rfl hne ⟨hby, rfl, rfl, rfl⟩ (by simp; omega)
    rw [h1, Option.map_some', Option.map_some', h2, List.nil_append,
      listedNames_wellFormed es z hes]

/-- C5 (amended): for every well-formed archive (`n` entries, each a 512-byte header
with a non-zero first name byte and a terminated octal size field `s_i`, then
`s_i` data bytes zero-padded to a multiple of 512; then `z` all-zero blocks;
total size below `2^31`), `ARC_GetFileList` returns, given fuel for `n + z + 1`
iterations, exactly the `n` entry names (the name field up to its first NUL, or
all 100 bytes), in archive order, duplicates kept, as NUL-terminated strings
followed by one more NUL when `n ≥ 1`, and `NULL` when `n = 0`. -/
theorem ARC_GetFileList_wellFormed (E : Env) (es : List TarEntry) (z fuel : Nat)
    (hes : ∀ x, x ∈ es → WellFormedEntry x) (hT : (archiveOf es z).length < 2 ^ 31)
    (hfuel : es.length + z + 1 ≤ fuel) :
    (ARC_GetFileList E fuel (openFile (archiveOf es z))).map Prod.fst
      = some (encodeNames (es.map (fun x => recordName x.header))) ∧
    (es ≠ [] → (ARC_GetFileList E fuel (openFile (archiveOf es z))).map Prod.fst
      = some (some (namesBytes (es.map (fun x => recordName x.header)) ++ [0]))) ∧
    (es = [] → (ARC_GetFileList E fuel (openFile (archiveOf es z))).map Prod.fst = some none) := by
  have main := ARC_GetFileList_names E es z fuel hes hT hfuel
  refine ⟨main, fun hne => ?_, fun he => ?_⟩
  · rw [main]; unfold encodeNames; rw [if_neg (by simpa using hne)]
  · rw [main, he]; rfl

theorem archiveBody_length (bs : List TarEntry) (hbs : ∀ x, x ∈ bs → Walkable x) :
    (archiveBody bs).length
      = (bs.map (fun x => 512 + 512 * ((x.data.length + 511) / 512))).sum := by
  induction bs with
  | nil => rfl
  | cons x xs ih =>
    rw [archiveBody, List.length_append, entryBytes_length x (hbs x (List.mem_cons_self x xs)).1,
      ih (fun y hy => hbs y (List.mem_cons_of_mem x hy))]
    simp

theorem archiveOf_length (es : List TarEntry) (z : Nat) (hes : ∀ x, x ∈ es → WellFormedEntry x) :
    (archiveOf es z).length = archiveLen es z := by
  unfold archiveOf archiveLen
  rw [archiveBody_length _ (blocks_walkable es z hes), List.map_append, List.sum_append]
  congr 1
  induction z with
  | zero => rfl
  | succ z ih =>
    have h0 : zeroBlock.data.length = 0 := rfl
    rw [List.replicate_succ, List.map_cons, List.sum_cons, ih]
    simp only [h0]
    omega

set_option maxRecDepth 1000000 in
/-- C5 (witness): the archive of `a.txt`, `big.bin`, `ab.txt` and two zero blocks
is well formed, 4608 bytes long, and `ARC_GetFileList` returns
`"a.txt\0big.bin\0ab.txt\0\0"`. -/
theorem ARC_GetFileList_wellFormed_witness :
    (∀ x, x ∈ sampleEntries → WellFormedEntry x) ∧
    (archiveOf sampleEntries 2).length = 4608 ∧
    (ARC_GetFileList env32 6 (openFile (archiveOf sampleEntries 2))).map Prod.fst
      = some (some (nameA ++ [0] ++ nameBig ++ [0] ++ nameAB ++ [0] ++ [0])) := by
  have hwf : ∀ x, x ∈ sampleEntries → WellFormedEntry x := by decide!
  have hlen : (archiveOf sampleEntries 2).length = 4608 := by
    rw [archiveOf_length _ _ hwf]; decide!
  exact ⟨hwf, hlen,
    ((ARC_GetFileList_wellFormed env32 sampleEntries 2 6 hwf (by rw [hlen]; decide)
      (by decide!)).2.1 (by decide!)).trans (by decide!)⟩

/-! ## Lemmas on `strncmp` and on the extraction loop -/

theorem strncmp_eq_zero_iff (s1 s2 : List Nat) (n : Nat) :
    strncmp s1 s2 n = 0 ↔ cstring (s1.take n) = cstring (s2.take n) := by
  induction n generalizing s1 s2 with
  | zero => simp [strncmp, cstring]
  | succ n ih =>
    unfold strncmp
    cases s1 with
    | nil =>
      cases s2 with
      | nil => simp [cstring]
      | cons b t =>
        by_cases hb : b = 0
        · subst hb; simp [cstring]
        · have : ((0 : Nat) : Int) - (b : Int) ≠ 0 := by omega
          simp [cstring, hb, Ne.symm hb, List.takeWhile_cons, this]
    | cons a t1 =>
      cases s2 with
      | nil =>
        by_cases ha : a = 0
        · subst ha; simp [cstring]
        · simp [cstring, ha, List.takeWhile_cons]
      | cons b t2 =>
        by_cases hab : a = b
        · subst hab
          by_cases ha : a = 0
          · subst ha; simp [cstring]
          · have := ih t1 t2
            simp only [cstring] at this
            simp [cstring, ha, List.takeWhile_cons, this]
        · by_cases ha : a = 0
          · subst ha
            simp [cstring, hab, Ne.symm hab, List.takeWhile_cons]
          · by_cases hb : b = 0
            · subst hb
              simp [cstring, ha, List.takeWhile_cons]
            · simp [cstring, ha, hb, hab, List.takeWhile_cons]
              omega

theorem cstring_take (s : List Nat) (n : Nat) (h : strlen s ≤ n) :
    cstring (s.take n) = cstring s := by
  unfold cstring
  unfold strlen at h
  rw [← List.take_takeWhile]
  exact List.take_of_length_le h

theorem cstring_idem (s : List Nat) : cstring (cstring s) = cstring s := by
  unfold cstring
  exact List.takeWhile_eq_self_iff.mpr
    (fun x hx => List.mem_takeWhile_imp (p := fun b => b != 0) hx)

theorem recordName_length_le (e : List Nat) : (recordName e).length ≤ 100 := by
  unfold recordName
  have h1 := (List.takeWhile_prefix (fun b => b != 0) (l := e.take 100)).length_le
  have h2 : (e.take 100).length ≤ 100 := by simp
  omega

/-- The test of lines 144-145, for a target of at most 100 bytes: the first name
byte is not NUL and the name up to its first NUL is the target. -/
theorem matches_iff (e entry : List Nat) (h : strlen entry ≤ 100) :
    Matches e entry ↔ (e.getD 0 0 ≠ 0 ∧ recordName e = cstring entry) := by
  unfold Matches
  rw [strncmp_eq_zero_iff, cstring_take entry 100 h]
  rfl

theorem wrapInt_bounds (x : Int) : -(2 ^ 31) ≤ wrapInt x ∧ wrapInt x < 2 ^ 31 := by
  unfold wrapInt; omega

theorem advance_lt (E : Env) (e : List Nat) (pos : Int) : advance E e pos < 2 ^ 31 :=
  (wrapInt_bounds _).2

/-- A pass that goes on read a record that does not match, and moved the cursor
by `advance` to a position inside `0 < pos < max`. -/
theorem decompressBody_next (E : Env) (max : Int) (entry : List Nat) (len : Nat)
    (s s1 : WalkState) (h : decompressBody E max entry len s = Flow.next s1) :
    ∃ e, headerAt E s = some e ∧ ¬ Matches e entry ∧
      s1 = { pos := advance E e s.pos, file := (Read (Seek s.file (toDWORD s.pos)).2 512).2,
             it := s.it + 1 } ∧
      s1.pos < max ∧ 0 < s1.pos := by
  unfold decompressBody at h
  simp only [] at h
  unfold headerAt
  split at h
  · exact absurd h (by simp)
  · split at h
    · exact absurd h (by simp)
    · split at h
      · exact absurd h (by simp)
      · split at h
        · next h1 h2 h3 h4 =>
          rw [if_neg h1, if_neg h2]
          refine ⟨_, rfl, h3, ?_, ?_, ?_⟩
          · injection h with h; exact h.symm
          · injection h with h; rw [← h]; exact h4.1
          · injection h with h; rw [← h]; exact h4.2
        · exact absurd h (by simp)

/-- A pass over a record that matches leaves with what `deliver` returns. -/
theorem decompressBody_match (E : Env) (max : Int) (entry : List Nat) (len : Nat)
    (s : WalkState) (e : List Nat) (he : headerAt E s = some e) (hm : Matches e entry) :
    decompressBody E max entry len s
      = Flow.leave (deliver E len s.pos e (Read (Seek s.file (toDWORD s.pos)).2 512).2) := by
  unfold headerAt at he
  unfold decompressBody
  simp only []
  split at he
  · exact absurd he (by simp)
  · next h1 =>
    split at he
    · exact absurd he (by simp)
    · next h2 =>
      injection he with he
      rw [if_neg h1, if_neg h2, he]
      exact if_pos hm

/-- A pass that leaves with a buffer read a record that matches. -/
theorem decompressBody_leave_some (E : Env) (max : Int) (entry : List Nat) (len : Nat)
    (s : WalkState) (r : Extracted) (h : decompressBody E max entry len s = Flow.leave r)
    (hb : r.buf ≠ none) :
    ∃ e, headerAt E s = some e ∧ Matches e entry ∧
      r = deliver E len s.pos e (Read (Seek s.file (toDWORD s.pos)).2 512).2 := by
  unfold decompressBody at h
  simp only [] at h
  unfold headerAt
  split at h
  · injection h with h; rw [← h] at hb; exact absurd rfl hb
  · split at h
    · injection h with h; rw [← h] at hb; exact absurd rfl hb
    · split at h
      · next h1 h2 h3 =>
        rw [if_neg h1, if_neg h2]
        injection h with h
        exact ⟨_, rfl, h3, h.symm⟩
      · split at h
        · exact absurd h (by simp)
        · injection h with h; rw [← h] at hb; exact absurd rfl hb

theorem decompressLoop_of_iter (E : Env) (max : Int) (entry : List Nat) (len i k : Nat)
    (s0 s : WalkState) (h : decompressIter E max entry len i s0 = some s) :
    decompressLoop E max entry len (i + k) s0 = decompressLoop E max entry len k s := by
  induction i generalizing s0 with
  | zero =>
    simp only [decompressIter, Option.some.injEq] at h
    rw [h, Nat.zero_add]
  | succ i ih =>
    rw [decompressIter] at h
    rw [Nat.succ_add, decompressLoop]
    split at h
    · next s1 heq => exact ih s1 h
    · exact absurd h (by simp)

/-- Every state the extraction walk reaches still has the archive bytes, and its
cursor is a non-negative `int`. -/
theorem decompressIter_inv (E : Env) (max : Int) (entry : List Nat) (len i : Nat)
    (s0 s : WalkState) (h : decompressIter E max entry len i s0 = some s)
    (hpos : 0 ≤ s0.pos ∧ s0.pos < 2 ^ 31) :
    s.file.bytes = s0.file.bytes ∧ 0 ≤ s.pos ∧ s.pos < 2 ^ 31 := by
  induction i generalizing s0 with
  | zero =>
    simp only [decompressIter, Option.some.injEq] at h
    rw [← h]; exact ⟨rfl, hpos⟩
  | succ i ih =>
    rw [decompressIter] at h
    split at h
    · next s1 heq =>
      obtain ⟨e, -, -, hs1, -, hgt⟩ := decompressBody_next E max entry len s0 s1 heq
      have hb : s1.file.bytes = s0.file.bytes := by
        rw [hs1]; show (Read _ 512).2.bytes = _; rw [Read_bytes, Seek_bytes]
      have hlt : s1.pos < 2 ^ 31 := by rw [hs1]; exact advance_lt E e s0.pos
      have := ih s1 h ⟨le_of_lt hgt, hlt⟩
      rw [hb] at this
      exact this
    · exact absurd h (by simp)

/-! ## C6: what a match delivers -/

/-- With the whole header block at cursor `p` in the archive, the iteration reads
exactly that block. -/
theorem headerAt_full (E : Env) (s : WalkState) (a : List Nat) (p : Nat)
    (hb : s.file.bytes = a) (hp : s.pos = (p : Int)) (hlt : p < 2 ^ 31)
    (hhdr : p + 512 ≤ a.length) :
    headerAt E s = some (field a p 512) ∧
    (Read (Seek s.file (toDWORD s.pos)).2 512).2.bytes = a := by
  have hdw : toDWORD s.pos = p := by rw [hp]; exact toDWORD_natCast p (by omega)
  have hsk : (Seek s.file p).1 = true := by
    rw [Seek_fst, hb]; exact decide_eq_true (by omega)
  have hrd : (Read (Seek s.file p).2 512).1 = field a p 512 := by
    rw [Read_fst, Seek_bytes, Seek_cursor _ _ (by rw [hb]; omega), hb]; rfl
  have hfl : (field a p 512).length = 512 := field_length a p 512 hhdr
  refine ⟨?_, by rw [Read_bytes, Seek_bytes, hb]⟩
  unfold headerAt
  rw [hdw, hsk, hrd, hfl, localEntry_full _ _ hfl]
  simp

theorem deliver_eq (E : Env) (len p : Nat) (e : List Nat) (f : XMPFILE)
    (hdw : toDWORD (wrapInt ((p : Int) + 512)) = p + 512)
    (hsk : ¬ (Seek f (p + 512)).1 = false)
    (hal : ¬ Alloc (min (getFileSize E e) len) = false) :
    deliver E len (p : Int) e f = { buf := some (Read (Seek f (p + 512)).2 (min (getFileSize E e) len)).1, len := (Read (Seek f (p + 512)).2 (min (getFileSize E e) len)).1.length, file := (Read (Seek f (p + 512)).2 (min (getFileSize E e) len)).2 } := by
  unfold deliver
  simp only []
  rw [hdw, if_neg hsk, if_neg hal]

/-- Lines 146-151 on a byte source that holds the archive `a`, for a cursor `p`
whose header block is complete. -/
theorem deliver_spec (E : Env) (len p : Nat) (e a : List Nat) (f : XMPFILE)
    (hb : f.bytes = a) (hlt : p < 2 ^ 31) (hhdr : p + 512 ≤ a.length) :
    (deliver E len (p : Int) e f).buf
      = some ((a.drop (p + 512)).take (min (getFileSize E e) len)) ∧
    (deliver E len (p : Int) e f).len
      = ((a.drop (p + 512)).take (min (getFileSize E e) len)).length := by
  have hdw : toDWORD (wrapInt ((p : Int) + 512)) = p + 512 := by
    unfold toDWORD wrapInt; omega
  have hsk : (Seek f (p + 512)).1 = true := by
    rw [Seek_fst, hb]; exact decide_eq_true hhdr
  have hrd : (Read (Seek f (p + 512)).2 (min (getFileSize E e) len)).1
      = (a.drop (p + 512)).take (min (getFileSize E e) len) := by
    rw [Read_fst, Seek_bytes, Seek_cursor _ _ (by rw [hb]; exact hhdr), hb]
  rw [deliver_eq E len p e f hdw (by rw [hsk]; exact Bool.noConfusion) Bool.noConfusion]
  simp only [hrd, and_self]

/-- C6: for every archive in which the extraction walk for the target (at most 100
bytes) reaches, at its iteration `i`, a header block at offset `p` that lies
whole in the archive and matches the target, and for every requested maximum
length `m`, `ARC_DecompressFile` returns (given fuel for more than `i`
iterations) the archive bytes from offset `p+512` on, `min(m,s)` of them or as
many as the archive holds, `s` being `getFileSize` of that header; the length
written back is the number of bytes delivered, which is `min(m,s)` when the
archive holds that many. -/
theorem ARC_DecompressFile_match (E : Env) (a entry : List Nat) (m i fuel p : Nat)
    (hname : strlen entry ≤ 100)
    (hvisit : ∃ s, decompressIter E (walkMax a) entry m i (walkStart a) = some s ∧
      s.pos = (p : Int))
    (hhdr : p + 512 ≤ a.length) (hm : Matches (field a p 512) entry) (hfuel : i < fuel) :
    ∃ r, ARC_DecompressFile E fuel (openFile a) entry m = some r ∧
      r.buf = some ((a.drop (p + 512)).take (min m (getFileSize E (field a p 512)))) ∧
      r.len = ((a.drop (p + 512)).take (min m (getFileSize E (field a p 512)))).length ∧
      (p + 512 + min m (getFileSize E (field a p 512)) ≤ a.length →
        r.len = min m (getFileSize E (field a p 512))) := by
  obtain ⟨s, hs, hp⟩ := hvisit
  obtain ⟨hbytes, -, hlt⟩ := decompressIter_inv E _ entry m i _ s hs
    ⟨le_refl _, show (0 : Int) < 2 ^ 31 by norm_num⟩
  have hb : s.file.bytes = a := hbytes
  have hp31 : p < 2 ^ 31 := by rw [hp] at hlt; omega
  obtain ⟨hhead, hfb⟩ := headerAt_full E s a p hb hp hp31 hhdr
  have hbody := decompressBody_match E (walkMax a) entry m s _ hhead hm
  obtain ⟨k, hk⟩ : ∃ k, fuel = i + (k + 1) := ⟨fuel - i - 1, by omega⟩
  have hd := deliver_spec E m p (field a p 512) a _ hfb hp31 hhdr
  rw [← hp] at hd
  refine ⟨deliver E m s.pos (field a p 512) (Read (Seek s.file (toDWORD s.pos)).2 512).2,
    ?_, ?_, ?_, ?_⟩
  · unfold ARC_DecompressFile
    rw [if_neg (by omega)]
    show decompressLoop E (walkMax a) entry m fuel (walkStart a) = _
    rw [hk, decompressLoop_of_iter E _ entry m i (k + 1) _ s hs, decompressLoop, hbody]
  · rw [hd.1, Nat.min_comm]
  · rw [hd.2, Nat.min_comm]
  · intro hle
    rw [hd.2, Nat.min_comm, List.length_take, List.length_drop]
    omega

set_option maxRecDepth 1000000 in
/-- C6 (witness): in the archive of `big.bin` (1000 bytes), the first iteration
reads the header of `big.bin` at offset 0; with `m = 100` the call returns
exactly the first 100 bytes of the data and writes back 100. -/
theorem ARC_DecompressFile_match_witness :
    strlen nameBig ≤ 100 ∧ 0 + 512 ≤ bigArchive.length ∧
    Matches (field bigArchive 0 512) nameBig ∧
    ∃ r, ARC_DecompressFile env32 1 (openFile bigArchive) nameBig 100 = some r ∧
      r.buf = some (bigData.take 100) ∧ r.len = 100 := by
  have hwf : ∀ x, x ∈ [mkEntry nameBig bigData] → WellFormedEntry x := by decide!
  have hlen : bigArchive.length = 2560 := by
    unfold bigArchive; rw [archiveOf_length _ _ hwf]; decide!
  have h1 : strlen nameBig ≤ 100 := by decide
  have h2 : 0 + 512 ≤ bigArchive.length := by rw [hlen]; decide
  have h3 : Matches (field bigArchive 0 512) nameBig := by decide!
  obtain ⟨r, hr, hbuf, hl, -⟩ := ARC_DecompressFile_match env32 bigArchive nameBig 100 0 1 0 h1
    ⟨walkStart bigArchive, by rw [decompressIter], rfl⟩ h2 h3 (by decide)
  exact ⟨h1, h2, h3, r, hr, hbuf.trans (by decide!), hl.trans (by decide!)⟩

/-! ## The extraction walk over a sequence of blocks -/

/-- A pass over a record that does not match goes on when the new cursor is inside
`0 < pos < max`. -/
theorem decompressBody_nomatch (E : Env) (max : Int) (entry : List Nat) (len : Nat)
    (s : WalkState) (e : List Nat) (he : headerAt E s = some e) (hm : ¬ Matches e entry)
    (hlt : advance E e s.pos < max) (hgt : advance E e s.pos > 0) :
    decompressBody E max entry len s
      = Flow.next { pos := advance E e s.pos,
                    file := (Read (Seek s.file (toDWORD s.pos)).2 512).2, it := s.it + 1 } := by
  unfold headerAt at he
  unfold decompressBody
  simp only []
  split at he
  · exact absurd he (by simp)
  · next h1 =>
    split at he
    · exact absurd he (by simp)
    · next h2 =>
      injection he with he
      have hm2 : ¬ (e.getD 0 0 ≠ 0 ∧ strncmp e entry 100 = 0) := hm
      rw [if_neg h1, if_neg h2, he, if_neg hm2, if_pos ⟨hlt, hgt⟩]

theorem field_block (pre blk more : List Nat) (n : Nat) (hn : blk.length = n) :
    field (pre ++ (blk ++ more)) pre.length n = blk := by
  unfold field
  rw [List.drop_left, take_append_len _ _ n hn]

theorem drop_block (pre blk more : List Nat) (n : Nat) (hn : blk.length = n) :
    (pre ++ (blk ++ more)).drop (pre.length + n) = more := by
  rw [← List.drop_drop, List.drop_left, drop_append_len _ _ n hn]

theorem take_min_append (d more : List Nat) (m : Nat) :
    (d ++ more).take (min d.length m) = d.take m := by
  rw [List.take_append_of_le_length (Nat.min_le_left _ _), Nat.min_comm, ← List.take_take,
    List.take_length]

/-- The extraction loop over blocks that do not match, followed by a block that
does: the data of that block is delivered, cut to `m` bytes. -/
theorem decompressLoop_blocks (E : Env) (a entry : List Nat) (m : Nat) (x : TarEntry)
    (rest : List Nat) (hx : Walkable x) (hmx : Matches x.header entry)
    (hT : a.length < 2 ^ 31) (bs1 : List TarEntry)
    (hbs : ∀ y, y ∈ bs1 → Walkable y ∧ ¬ Matches y.header entry)
    (pre : List Nat) (s : WalkState) (fuel : Nat)
    (ha : a = pre ++ (archiveBody bs1 ++ (entryBytes x ++ rest)))
    (hb : s.file.bytes = a) (hpos : s.pos = (pre.length : Int)) (hfuel : bs1.length < fuel) :
    ∃ r, decompressLoop E (a.length : Int) entry m fuel s = some r ∧
      r.buf = some (x.data.take m) ∧ r.len = (x.data.take m).length := by
  induction bs1 generalizing pre s fuel with
  | nil =>
    obtain ⟨k, hk⟩ : ∃ k, fuel = k + 1 := ⟨fuel - 1, by simp at hfuel; omega⟩
    have ha2 : a = pre ++ (x.header ++ (x.data ++ (List.replicate (padLen x.data.length) 0 ++ rest))) := by
      rw [ha]; simp [archiveBody, entryBytes]
    have hal : a.length = pre.length + (512 + (x.data.length +
        ((List.replicate (padLen x.data.length) 0 ++ rest)).length)) := by
      rw [ha2]; simp only [List.length_append, hx.1]
    have hfield : field a pre.length 512 = x.header := by
      rw [ha2]; exact field_block pre x.header _ 512 hx.1
    obtain ⟨hhead, hfb⟩ := headerAt_full E s a pre.length hb hpos (by omega) (by omega)
    rw [hfield] at hhead
    have hbody := decompressBody_match E (a.length : Int) entry m s _ hhead hmx
    have hd := deliver_spec E m pre.length x.header a _ hfb (by omega) (by omega)
    rw [← hpos] at hd
    have hgs : getFileSize E x.header = x.data.length := getFileSize_ok E x hx.2 (by omega)
    have hdrop : a.drop (pre.length + 512) = x.data ++ (List.replicate (padLen x.data.length) 0 ++ rest) := by
      rw [ha2]; exact drop_block pre x.header _ 512 hx.1
    rw [hgs, hdrop, take_min_append] at hd
    refine ⟨deliver E m s.pos x.header (Read (Seek s.file (toDWORD s.pos)).2 512).2, ?_, hd.1, hd.2⟩
    rw [hk, decompressLoop, hbody]
  | cons y ys ih =>
    obtain ⟨k, hk⟩ : ∃ k, fuel = k + 1 := ⟨fuel - 1, by simp at hfuel; omega⟩
    obtain ⟨hy, hmy⟩ := hbs y (List.mem_cons_self y ys)
    have hel := entryBytes_length y hy.1
    have helx := entryBytes_length x hx.1
    have ha2 : a = pre ++ (y.header ++ ((y.data ++ List.replicate (padLen y.data.length) 0) ++
        (archiveBody ys ++ (entryBytes x ++ rest)))) := by
      rw [ha]; simp [archiveBody, entryBytes]
    have ha3 : a = (pre ++ entryBytes y) ++ (archiveBody ys ++ (entryBytes x ++ rest)) := by
      rw [ha]; simp [archiveBody]
    have hal : a.length = pre.length + ((entryBytes y).length +
        ((archiveBody ys).length + ((entryBytes x).length + rest.length))) := by
      rw [ha3]; simp only [List.length_append]; omega
    have hfield : field a pre.length 512 = y.header := by
      rw [ha2]; exact field_block pre y.header _ 512 hy.1
    obtain ⟨hhead, hfb⟩ := headerAt_full E s a pre.length hb hpos (by omega) (by omega)
    rw [hfield] at hhead
    have hgs : getFileSize E y.header = y.data.length := getFileSize_ok E y hy.2 (by omega)
    have hadv : advance E y.header s.pos = (((pre ++ entryBytes y).length : Nat) : Int) := by
      rw [hpos, advance_ok E y.header pre.length y.data.length hgs (by omega),
        List.length_append, hel]
    have hbody := decompressBody_nomatch E (a.length : Int) entry m s _ hhead hmy
      (by rw [hadv, List.length_append]; omega) (by rw [hadv, List.length_append]; omega)
    rw [hk, decompressLoop, hbody]
    exact ih (fun z hz => hbs z (List.mem_cons_of_mem y hz)) (pre ++ entryBytes y) _ k ha3
      hfb hadv (by simp at hfuel; omega)

/-! ## What the extraction loop has visited when it leaves -/

/-- A loop that leaves with a buffer does so in an iteration whose record matches,
with what `deliver` returns there. -/
theorem decompressLoop_some_buf (E : Env) (max : Int) (entry : List Nat) (len fuel : Nat)
    (s0 : WalkState) (r : Extracted) (h : decompressLoop E max entry len fuel s0 = some r)
    (hb : r.buf ≠ none) :
    ∃ i s e, decompressIter E max entry len i s0 = some s ∧ headerAt E s = some e ∧
      Matches e entry ∧
      r = deliver E len s.pos e (Read (Seek s.file (toDWORD s.pos)).2 512).2 := by
  induction fuel generalizing s0 with
  | zero => exact absurd h (by simp [decompressLoop])
  | succ fuel ih =>
    rw [decompressLoop] at h
    split at h
    · next s1 heq =>
      obtain ⟨i, s, e, h1, h2, h3, h4⟩ := ih s1 h
      refine ⟨i + 1, s, e, ?_, h2, h3, h4⟩
      rw [decompressIter, heq]
      exact h1
    · next r1 heq =>
      injection h with h
      subst h
      obtain ⟨e, h2, h3, h4⟩ := decompressBody_leave_some E max entry len s0 r1 heq hb
      exact ⟨0, s0, e, rfl, h2, h3, h4⟩

/-- Every iteration before one that is reached read a record that does not match. -/
theorem decompressIter_before (E : Env) (max : Int) (entry : List Nat) (len i j : Nat)
    (s0 s : WalkState) (h : decompressIter E max entry len i s0 = some s) (hj : j < i) :
    ∃ sj ej, decompressIter E max entry len j s0 = some sj ∧ headerAt E sj = some ej ∧
      ¬ Matches ej entry := by
  induction i generalizing s0 j with
  | zero => omega
  | succ i ih =>
    rw [decompressIter] at h
    split at h
    · next s1 heq =>
      cases j with
      | zero =>
        obtain ⟨e, h1, h2, -⟩ := decompressBody_next E max entry len s0 s1 heq
        exact ⟨s0, e, rfl, h1, h2⟩
      | succ j =>
        obtain ⟨sj, ej, h1, h2, h3⟩ := ih j s1 h (by omega)
        refine ⟨sj, ej, ?_, h2, h3⟩
        rw [decompressIter, heq]
        exact h1
    · exact absurd h (by simp)

/-- No iteration starts after one whose record matches. -/
theorem decompressIter_after (E : Env) (max : Int) (entry : List Nat) (len i j : Nat)
    (s0 s : WalkState) (e : List Nat) (h : decompressIter E max entry len i s0 = some s)
    (he : headerAt E s = some e) (hm : Matches e entry) (hj : i < j) :
    decompressIter E max entry len j s0 = none := by
  induction i generalizing s0 j with
  | zero =>
    simp only [decompressIter, Option.some.injEq] at h
    subst h
    obtain ⟨k, hk⟩ : ∃ k, j = k + 1 := ⟨j - 1, by omega⟩
    rw [hk, decompressIter, decompressBody_match E max entry len s0 e he hm]
  | succ i ih =>
    rw [decompressIter] at h
    split at h
    · next s1 heq =>
      obtain ⟨k, hk⟩ : ∃ k, j = k + 1 := ⟨j - 1, by omega⟩
      rw [hk, decompressIter, heq]
      exact ih k s1 h (by omega)
    · exact absurd h (by simp)

theorem ARC_DecompressFile_eq_loop (E : Env) (a entry : List Nat) (m fuel : Nat)
    (hname : strlen entry ≤ 100) :
    ARC_DecompressFile E fuel (openFile a) entry m
      = decompressLoop E (walkMax a) entry m fuel (walkStart a) := by
  unfold ARC_DecompressFile
  rw [if_neg (by omega)]
  rfl

/-- A matching record visited by the walk is visited at the iteration that leaves
with a buffer, and only there. -/
theorem visits_match_unique (E : Env) (a entry : List Nat) (m i j : Nat) (s : WalkState)
    (e : List Nat) (pj : Int) (ej : List Nat)
    (hs : decompressIter E (walkMax a) entry m i (walkStart a) = some s)
    (he : headerAt E s = some e) (hm : Matches e entry)
    (hv : VisitsAt E a entry m j pj ej) (hmj : Matches ej entry) : j = i ∧ pj = s.pos := by
  obtain ⟨sj, hsj, hpj, hej⟩ := hv
  rcases Nat.lt_trichotomy j i with hlt | heq | hgt
  · obtain ⟨sj2, ej2, h1, h2, h3⟩ := decompressIter_before E _ entry m i j _ s hs hlt
    rw [hsj] at h1
    injection h1 with h1
    subst h1
    rw [hej] at h2
    injection h2 with h2
    subst h2
    exact absurd hmj h3
  · subst heq
    rw [hsj] at hs
    injection hs with hs
    subst hs
    exact ⟨rfl, hpj.symm⟩
  · have := decompressIter_after E _ entry m i j _ s e hs he hm hgt
    rw [hsj] at this
    exact absurd this (by simp)

/-! ## Data is returned only for a header that matches -/

/-- Extraction from an archive whose blocks before the member `x` do not match the
target while `x` does: the data of `x`, cut to `m` bytes, is returned. -/
theorem ARC_DecompressFile_blocks (E : Env) (entry : List Nat) (m fuel : Nat)
    (bs1 : List TarEntry) (x : TarEntry) (rest : List Nat) (hname : strlen entry ≤ 100)
    (hbs : ∀ y, y ∈ bs1 → Walkable y ∧ ¬ Matches y.header entry) (hx : Walkable x)
    (hmx : Matches x.header entry)
    (hT : (archiveBody bs1 ++ (entryBytes x ++ rest)).length < 2 ^ 31)
    (hfuel : bs1.length < fuel) :
    ∃ r, ARC_DecompressFile E fuel (openFile (archiveBody bs1 ++ (entryBytes x ++ rest))) entry m
        = some r ∧
      r.buf = some (x.data.take m) ∧ r.len = (x.data.take m).length := by
  obtain ⟨hsz, hby⟩ := GetSize_openFile _ hT
  rw [ARC_DecompressFile_eq_loop E _ entry m fuel hname]
  unfold walkMax
  rw [hsz]
  exact decompressLoop_blocks E _ entry m x rest hx hmx hT bs1 hbs [] _ fuel rfl hby rfl hfuel

/-- The part of C7 that holds on every archive: for every target of at most 100
bytes, whenever `ARC_DecompressFile` returns, it returns a buffer only if some
iteration of its walk read a record whose first name byte is not NUL and whose
name, up to the first NUL within the 100 bytes, equals the target; so a call
that returns after visiting no such record returns `NULL`. -/
theorem ARC_DecompressFile_only_match (E : Env) (a entry : List Nat) (m fuel : Nat)
    (r : Extracted) (hname : strlen entry ≤ 100)
    (hr : ARC_DecompressFile E fuel (openFile a) entry m = some r) :
    (r.buf ≠ none → ∃ i p e, VisitsAt E a entry m i p e ∧ e.getD 0 0 ≠ 0 ∧
      recordName e = cstring entry) ∧
    ((∀ i p e, VisitsAt E a entry m i p e → ¬ (e.getD 0 0 ≠ 0 ∧ recordName e = cstring entry)) →
      r.buf = none) := by
  rw [ARC_DecompressFile_eq_loop E a entry m fuel hname] at hr
  have key : r.buf ≠ none → ∃ i p e, VisitsAt E a entry m i p e ∧ e.getD 0 0 ≠ 0 ∧
      recordName e = cstring entry := by
    intro hb
    obtain ⟨i, s, e, h1, h2, h3, -⟩ := decompressLoop_some_buf E _ entry m fuel _ r hr hb
    have h4 := (matches_iff e entry hname).mp h3
    exact ⟨i, s.pos, e, ⟨s, h1, rfl, h2⟩, h4.1, h4.2⟩
  refine ⟨key, fun hno => ?_⟩
  by_contra hb
  obtain ⟨i, p, e, hv, h1, h2⟩ := key hb
  exact hno i p e hv ⟨h1, h2⟩

set_option maxRecDepth 1000000 in
/-- The example of C7: in the archive of `ab.txt` and `a.txt` (content `"hello"`), the
request for `a.txt` returns exactly `"hello"`, and a visited record is named
`a.txt`. -/
theorem ARC_DecompressFile_only_match_witness :
    strlen nameA ≤ 100 ∧
    ∃ r, ARC_DecompressFile env32 3 (openFile prefixArchive) nameA 100 = some r ∧
      r.buf = some hello ∧ r.len = 5 ∧
      ∃ i p e, VisitsAt env32 prefixArchive nameA 100 i p e ∧ e.getD 0 0 ≠ 0 ∧
        recordName e = cstring nameA := by
  have hname : strlen nameA ≤ 100 := by decide
  have hwf : ∀ x, x ∈ [mkEntry nameAB [97, 98, 99], mkEntry nameA hello] → WellFormedEntry x := by
    decide!
  have hlen : prefixArchive.length = 3072 := by
    unfold prefixArchive; rw [archiveOf_length _ _ hwf]; decide!
  have harch : prefixArchive = archiveBody [mkEntry nameAB [97, 98, 99]] ++
      (entryBytes (mkEntry nameA hello) ++ archiveBody (List.replicate 2 zeroBlock)) := by
    simp [prefixArchive, archiveOf, archiveBody]
  obtain ⟨r, hr, hbuf, hl⟩ := ARC_DecompressFile_blocks env32 nameA 100 3
    [mkEntry nameAB [97, 98, 99]] (mkEntry nameA hello) (archiveBody (List.replicate 2 zeroBlock))
    hname (by decide!) (by decide!) (by decide!) (by rw [← harch, hlen]; decide) (by decide)
  rw [← harch] at hr
  exact ⟨hname, r, hr, hbuf, hl,
    (ARC_DecompressFile_only_match env32 prefixArchive nameA 100 3 r hname hr).1
      (by rw [hbuf]; exact Option.noConfusion)⟩

/-! ## C8: the length limit on the target -/

theorem cstring_length (s : List Nat) : (cstring s).length = strlen s := rfl

/-- C8: (1) a target longer than 100 bytes makes `ARC_DecompressFile` return `NULL`
at once, for any fuel, with `*len` and the byte source untouched: no size
query, seek or read is made; (2) a target of exactly 100 bytes is accepted: the
call is the walk, which starts with the size query, and a record whose 100-byte
name field holds those 100 bytes matches; so when the archive starts with such
a block (512 bytes at least), its data is returned. -/
theorem ARC_DecompressFile_name_limit (E : Env) (a entry : List Nat) (m fuel : Nat) :
    (100 < strlen entry → ∀ file : XMPFILE,
      ARC_DecompressFile E fuel file entry m = some { buf := none, len := m, file := file }) ∧
    (strlen entry = 100 →
      ARC_DecompressFile E fuel (openFile a) entry m
        = decompressLoop E (walkMax a) entry m fuel (walkStart a) ∧
      (walkStart a).file.calls = [Call.getSize] ∧
      (∀ e : List Nat, e.take 100 = cstring entry → Matches e entry) ∧
      (512 ≤ a.length → a.take 100 = cstring entry → 0 < fuel →
        ∃ r, ARC_DecompressFile E fuel (openFile a) entry m = some r ∧
          r.buf = some ((a.drop 512).take (min (getFileSize E (field a 0 512)) m)))) := by
  constructor
  · intro hlong file
    unfold ARC_DecompressFile
    rw [if_pos hlong]
  · intro h100
    have hname : strlen entry ≤ 100 := le_of_eq h100
    have hmatch : ∀ e : List Nat, e.take 100 = cstring entry → Matches e entry := by
      intro e he
      rw [matches_iff e entry hname]
      have hrec : recordName e = cstring entry := by
        show cstring (e.take 100) = cstring entry
        rw [he, cstring_idem]
      refine ⟨?_, hrec⟩
      have hlen : (cstring entry).length = 100 := by rw [cstring_length, h100]
      have hne : cstring entry ≠ [] := by
        intro h; rw [h] at hlen; simp at hlen
      obtain ⟨b, t, hbt⟩ := List.exists_cons_of_ne_nil hne
      have hb : b ≠ 0 := by
        have : b ∈ cstring entry := by rw [hbt]; exact List.mem_cons_self b t
        have := List.mem_takeWhile_imp (p := fun b => b != 0) this
        simpa using this
      cases e with
      | nil => rw [List.take_nil] at he; exact absurd he.symm hne
      | cons c u =>
        rw [hbt, List.take_succ_cons] at he
        injection he with h1 h2
        rw [List.getD_cons_zero, h1]
        exact hb
    refine ⟨ARC_DecompressFile_eq_loop E a entry m fuel hname, rfl, hmatch, ?_⟩
    intro hlen htake hfuel
    have hm : Matches (field a 0 512) entry := by
      apply hmatch
      show ((a.drop 0).take 512).take 100 = _
      rw [List.drop_zero, List.take_take]
      exact htake
    obtain ⟨hhead, hfb⟩ := headerAt_full E (walkStart a) a 0 rfl rfl (by decide) (by omega)
    have hbody := decompressBody_match E (walkMax a) entry m (walkStart a) _ hhead hm
    have hd := deliver_spec E m 0 (field a 0 512) a _ hfb (by decide) (by omega)
    obtain ⟨k, hk⟩ : ∃ k, fuel = k + 1 := ⟨fuel - 1, by omega⟩
    refine ⟨deliver E m (walkStart a).pos (field a 0 512)
      (Read (Seek (walkStart a).file (toDWORD (walkStart a).pos)).2 512).2, ?_, hd.1⟩
    rw [ARC_DecompressFile_eq_loop E a entry m fuel hname, hk, decompressLoop, hbody]

set_option maxRecDepth 1000000 in
/-- C8 (witness): on `longNameArchive`, the 101-byte target returns `NULL` with no
fuel and leaves the freshly opened byte source as it was (no call made); the
100-byte target matches the block whose name field has no NUL and returns the
first 3 data bytes. -/
theorem ARC_DecompressFile_name_limit_witness :
    100 < strlen name101 ∧
    ARC_DecompressFile env32 0 (openFile longNameArchive) name101 3
      = some { buf := none, len := 3, file := openFile longNameArchive } ∧
    (openFile longNameArchive).calls = [] ∧
    strlen name100 = 100 ∧ 512 ≤ longNameArchive.length ∧
    longNameArchive.take 100 = cstring name100 ∧
    ∃ r, ARC_DecompressFile env32 1 (openFile longNameArchive) name100 3 = some r ∧
      r.buf = some [1, 1, 1] := by
  have h1 : 100 < strlen name101 := by decide!
  have h2 : strlen name100 = 100 := by decide!
  have h3 : 512 ≤ longNameArchive.length := by decide!
  have h4 : longNameArchive.take 100 = cstring name100 := by decide!
  obtain ⟨r, hr, hbuf⟩ :=
    ((ARC_DecompressFile_name_limit env32 longNameArchive name100 3 1).2 h2).2.2.2 h3 h4
      (by decide)
  exact ⟨h1, (ARC_DecompressFile_name_limit env32 longNameArchive name101 3 0).1 h1 _, rfl,
    h2, h3, h4, r, hr, hbuf.trans (by decide!)⟩

/-! ## What a returned buffer says about the walk -/

/-- When `deliver` returns a buffer, it made one seek and one read, and the buffer
holds what that read delivered. -/
theorem deliver_some (E : Env) (len : Nat) (pos : Int) (e : List Nat) (f : XMPFILE)
    (h : (deliver E len pos e f).buf ≠ none) :
    (deliver E len pos e f).buf
      = some ((f.bytes.drop (toDWORD (wrapInt (pos + 512)))).take (min (getFileSize E e) len)) ∧
    (deliver E len pos e f).file.calls
      = f.calls ++ [Call.seek (toDWORD (wrapInt (pos + 512))),
          Call.read (min (getFileSize E e) len)] := by
  unfold deliver at h ⊢
  simp only [] at h ⊢
  split
  · next h1 => rw [if_pos h1] at h; exact absurd rfl h
  · next h1 =>
    have hle : toDWORD (wrapInt (pos + 512)) ≤ f.bytes.length := by
      rw [Seek_fst] at h1
      simpa using h1
    split
    · next h2 => rw [if_neg h1, if_pos h2] at h; exact absurd rfl h
    · constructor
      · show some (Read _ _).1 = _
        rw [Read_fst, Seek_bytes, Seek_cursor _ _ hle]
      · show (Read _ _).2.calls = _
        unfold Read Seek
        rw [if_pos hle]
        simp

theorem header_read_calls (f : XMPFILE) (p : Nat) :
    (Read (Seek f p).2 512).2.calls = f.calls ++ [Call.seek p, Call.read 512] ∧
    (Read (Seek f p).2 512).2.bytes = f.bytes := by
  refine ⟨?_, by rw [Read_bytes, Seek_bytes]⟩
  unfold Read Seek
  split <;> simp

/-- Whenever `ARC_DecompressFile` (target of at most 100 bytes) returns a buffer, it
comes from the first match of the walk (`FirstMatch`): the record of some
iteration `i` matches, no record visited earlier does, no iteration starts after
`i`, the buffer holds the bytes read at that cursor plus 512, and after reading
that header the byte source sees exactly one more seek and one more read. -/
theorem ARC_DecompressFile_first_match (E : Env) (a entry : List Nat) (m fuel : Nat)
    (r : Extracted) (hname : strlen entry ≤ 100)
    (hr : ARC_DecompressFile E fuel (openFile a) entry m = some r) (hbuf : r.buf ≠ none) :
    FirstMatch E a entry m r := by
  unfold FirstMatch
  rw [ARC_DecompressFile_eq_loop E a entry m fuel hname] at hr
  obtain ⟨i, s, e, h1, h2, h3, h4⟩ := decompressLoop_some_buf E _ entry m fuel _ r hr hbuf
  obtain ⟨hbytes, -, -⟩ := decompressIter_inv E _ entry m i _ s h1
    ⟨le_refl _, show (0 : Int) < 2 ^ 31 by norm_num⟩
  have hb : s.file.bytes = a := hbytes
  obtain ⟨hc, hfb⟩ := header_read_calls s.file (toDWORD s.pos)
  rw [h4] at hbuf
  obtain ⟨hd1, hd2⟩ := deliver_some E m s.pos e _ hbuf
  refine ⟨i, s, e, h1, h2, h3, ?_, ?_, ?_, ?_, ?_⟩
  · intro j pj ej hj hv hmj
    have := (visits_match_unique E a entry m i j s e pj ej h1 h2 h3 hv hmj).1
    omega
  · intro j pj ej hv hmj
    exact visits_match_unique E a entry m i j s e pj ej h1 h2 h3 hv hmj
  · intro j pj ej hv
    by_contra hlt
    obtain ⟨sj, hsj, -, -⟩ := hv
    have := decompressIter_after E _ entry m i j _ s e h1 h2 h3 (by omega)
    rw [hsj] at this
    exact absurd this (by simp)
  · rw [h4, hd1, hfb, hb]
  · rw [h4, hd2, hc]
    simp

/-! ## C9: every listed name can be extracted -/

theorem splitNames_name (cur n rest : List Nat) (hn : ∀ b, b ∈ n → b ≠ 0) :
    splitNames cur (n ++ 0 :: rest)
      = if cur ++ n = [] then [] else (cur ++ n) :: splitNames [] rest := by
  induction n generalizing cur with
  | nil => simp [splitNames]
  | cons b n ih =>
    have hb : b ≠ 0 := hn b (List.mem_cons_self b n)
    rw [List.cons_append, splitNames, if_neg hb, ih _ (fun c hc => hn c (List.mem_cons_of_mem b hc))]
    simp

theorem parseNames_encodeNames (ns : List (List Nat))
    (h : ∀ n, n ∈ ns → n ≠ [] ∧ ∀ b, b ∈ n → b ≠ 0) : parseNames (encodeNames ns) = ns := by
  have key : splitNames [] (namesBytes ns ++ [0]) = ns := by
    induction ns with
    | nil => simp [namesBytes, splitNames]
    | cons n ns ih =>
      obtain ⟨h1, h2⟩ := h n (List.mem_cons_self n ns)
      rw [namesBytes, List.append_assoc, List.cons_append, splitNames_name [] n _ h2,
        List.nil_append, if_neg h1, ih (fun k hk => h k (List.mem_cons_of_mem n hk))]
  unfold encodeNames
  split
  · next h0 => rw [h0]; rfl
  · exact key

theorem recordName_nul_free (e : List Nat) : ∀ b, b ∈ recordName e → b ≠ 0 := by
  intro b hb
  have := List.mem_takeWhile_imp (p := fun b => b != 0) hb
  simpa using this

theorem recordName_ne_nil (e : List Nat) (h : e.getD 0 0 ≠ 0) : recordName e ≠ [] := by
  cases e with
  | nil => exact absurd rfl h
  | cons a t =>
    have ha : a ≠ 0 := h
    simp [recordName, List.takeWhile_cons, ha]

theorem strlen_nul_free (s : List Nat) (h : ∀ b, b ∈ s → b ≠ 0) : cstring s = s := by
  unfold cstring
  exact List.takeWhile_eq_self_iff.mpr (fun b hb => by simpa using h b hb)

/-- A record whose first name byte is not NUL matches its own name. -/
theorem matches_own_name (e : List Nat) (h : e.getD 0 0 ≠ 0) :
    strlen (recordName e) ≤ 100 ∧ Matches e (recordName e) := by
  have hc : cstring (recordName e) = recordName e := strlen_nul_free _ (recordName_nul_free e)
  have hl : strlen (recordName e) ≤ 100 := by
    rw [← cstring_length, hc]; exact recordName_length_le e
  exact ⟨hl, (matches_iff e _ hl).mpr ⟨h, hc.symm⟩⟩

theorem exists_first_match (entry : List Nat) (es : List TarEntry)
    (h : ∃ x, x ∈ es ∧ Matches x.header entry) :
    ∃ bs1 y bs2, es = bs1 ++ y :: bs2 ∧ Matches y.header entry ∧
      ∀ z, z ∈ bs1 → ¬ Matches z.header entry := by
  induction es with
  | nil => obtain ⟨x, hx, -⟩ := h; exact absurd hx (List.not_mem_nil x)
  | cons a es ih =>
    by_cases ha : Matches a.header entry
    · exact ⟨[], a, es, rfl, ha, fun z hz => absurd hz (List.not_mem_nil z)⟩
    · obtain ⟨x, hx, hmx⟩ := h
      have hx2 : x ∈ es := by
        rcases List.mem_cons.mp hx with h1 | h1
        · subst h1; exact absurd hmx ha
        · exact h1
      obtain ⟨bs1, y, bs2, h1, h2, h3⟩ := ih ⟨x, hx2, hmx⟩
      refine ⟨a :: bs1, y, bs2, by rw [h1]; rfl, h2, ?_⟩
      intro z hz
      rcases List.mem_cons.mp hz with h4 | h4
      · subst h4; exact ha
      · exact h3 z h4

theorem archiveBody_append (xs ys : List TarEntry) :
    archiveBody (xs ++ ys) = archiveBody xs ++ archiveBody ys := by
  induction xs with
  | nil => rfl
  | cons x xs ih => simp [archiveBody, ih]

/-- C9: for every well-formed archive (as in the listing claim, every member with its
data and padding present, total size below `2^31`), with fuel for `n + z + 1`
iterations: `ARC_GetFileList` returns a buffer, and every name the buffer holds,
passed to `ARC_DecompressFile` with any maximum length `m`, yields a non-`NULL`
result whose bytes are the data (cut to `m` bytes) of a member with that name. -/
theorem list_then_extract (E : Env) (es : List TarEntry) (z fuel m : Nat)
    (hes : ∀ x, x ∈ es → WellFormedEntry x) (hT : (archiveOf es z).length < 2 ^ 31)
    (hfuel : es.length + z + 1 ≤ fuel) :
    ∃ fl, (ARC_GetFileList E fuel (openFile (archiveOf es z))).map Prod.fst = some fl ∧
      parseNames fl = es.map (fun x => recordName x.header) ∧
      ∀ name, name ∈ parseNames fl →
        ∃ r y, ARC_DecompressFile E fuel (openFile (archiveOf es z)) name m = some r ∧
          y ∈ es ∧ recordName y.header = name ∧
          r.buf = some (y.data.take m) ∧ r.len = (y.data.take m).length := by
  have hparse : parseNames (encodeNames (es.map (fun x => recordName x.header)))
      = es.map (fun x => recordName x.header) := by
    apply parseNames_encodeNames
    intro n hn
    obtain ⟨x, hx, rfl⟩ := List.mem_map.mp hn
    exact ⟨recordName_ne_nil _ (hes x hx).2, recordName_nul_free _⟩
  refine ⟨_, ARC_GetFileList_names E es z fuel hes hT hfuel, hparse, ?_⟩
  intro name hname
  rw [hparse] at hname
  obtain ⟨x, hx, rfl⟩ := List.mem_map.mp hname
  obtain ⟨hl, hmx⟩ := matches_own_name x.header (hes x hx).2
  obtain ⟨bs1, y, bs2, hsplit, hmy, hno⟩ :=
    exists_first_match (recordName x.header) es ⟨x, hx, hmx⟩
  have hy : y ∈ es := by rw [hsplit]; simp
  have hbs1 : ∀ w, w ∈ bs1 → Walkable w ∧ ¬ Matches w.header (recordName x.header) := by
    intro w hw
    exact ⟨(hes w (by rw [hsplit]; simp [hw])).1, hno w hw⟩
  have harch : archiveOf es z = archiveBody bs1 ++
      (entryBytes y ++ archiveBody (bs2 ++ List.replicate z zeroBlock)) := by
    unfold archiveOf
    rw [hsplit, List.append_assoc, archiveBody_append, List.cons_append, archiveBody]
  have hname2 : recordName y.header = recordName x.header := by
    have := ((matches_iff y.header _ hl).mp hmy).2
    rw [this]
    exact strlen_nul_free _ (recordName_nul_free x.header)
  have hlen1 : bs1.length < fuel := by
    have : es.length = bs1.length + (bs2.length + 1) := by rw [hsplit]; simp
    omega
  rw [harch] at hT ⊢
  obtain ⟨r, hr, hbuf, hlen⟩ := ARC_DecompressFile_blocks E (recordName x.header) m fuel bs1 y
    (archiveBody (bs2 ++ List.replicate z zeroBlock)) hl hbs1 (hes y hy).1 hmy hT hlen1
  exact ⟨r, y, hr, hy, hname2, hbuf, hlen⟩

set_option maxRecDepth 1000000 in
/-- C9 (witness): the archive of `a.txt`, `big.bin`, `ab.txt` and two zero blocks is
well formed; its listing holds these three names, and each of them, requested
with a maximum of 100 bytes, yields a buffer. -/
theorem list_then_extract_witness :
    (∀ x, x ∈ sampleEntries → WellFormedEntry x) ∧
    (archiveOf sampleEntries 2).length < 2 ^ 31 ∧
    ∃ fl, (ARC_GetFileList env32 6 (openFile (archiveOf sampleEntries 2))).map Prod.fst = some fl ∧
      parseNames fl = [nameA, nameBig, nameAB] ∧
      ∀ name, name ∈ parseNames fl →
        ∃ r, ARC_DecompressFile env32 6 (openFile (archiveOf sampleEntries 2)) name 100 = some r ∧
          r.buf ≠ none := by
  have hwf : ∀ x, x ∈ sampleEntries → WellFormedEntry x := by decide!
  have hlen : (archiveOf sampleEntries 2).length < 2 ^ 31 := by
    rw [archiveOf_length _ _ hwf]; decide!
  obtain ⟨fl, h1, h2, h3⟩ := list_then_extract env32 sampleEntries 2 6 100 hwf hlen (by decide)
  refine ⟨hwf, hlen, fl, h1, h2.trans (by decide!), ?_⟩
  intro name hname
  obtain ⟨r, y, hr, -, -, hbuf, -⟩ := h3 name hname
  exact ⟨r, hr, by rw [hbuf]; exact Option.noConfusion⟩

/-! ## C11: `checkChecksum` leaves the record as it was -/

theorem take_append_drop_length (l : List Nat) (n : Nat) :
    l.take n ++ l.drop (l.take n).length = l := by
  by_cases h : n ≤ l.length
  · rw [List.length_take, Nat.min_eq_left h, List.take_append_drop]
  · rw [List.take_of_length_le (by omega), List.drop_length, List.append_nil]

theorem poke_own_field (e : List Nat) (off len : Nat) :
    poke e off (field e off len) = e := by
  unfold poke field
  rw [List.append_assoc, ← List.drop_drop, take_append_drop_length, List.take_append_drop]

/-- C11: for every 512-byte record and whatever lies on the stack, the record that
`checkChecksum` leaves behind is the record it was given, all 512 bytes of it,
whichever result it returns. -/
theorem checkChecksum_restores (stack : Nat → Nat) (h : List Nat) (hlen : h.length = 512) :
    (checkChecksumRun stack h).2 = h ∧ (checkChecksumRun stack h).2.length = 512 := by
  have h1 : (checkChecksumRun stack h).2 = h := by
    unfold checkChecksumRun
    simp only []
    rw [poke_poke h _ _ 148 (by omega) (by rw [field_length h 148 8 (by omega)]; rfl)]
    exact poke_own_field h 148 8
  exact ⟨h1, by rw [h1, hlen]⟩

set_option maxRecDepth 1000000 in
/-- C11 (witness): the record `eightDigitHeader` is 512 bytes long and is left as it
was, both when the call returns true and when it returns false. -/
theorem checkChecksum_restores_witness :
    eightDigitHeader.length = 512 ∧
    (checkChecksumRun (bytesFn []) eightDigitHeader).2 = eightDigitHeader ∧
    (checkChecksumRun (bytesFn [49]) eightDigitHeader).2 = eightDigitHeader :=
  ⟨by decide!, (checkChecksum_restores (bytesFn []) eightDigitHeader (by decide!)).1,
    (checkChecksum_restores (bytesFn [49]) eightDigitHeader (by decide!)).1⟩

/-! ## C12: a short read of a header -/

set_option maxRecDepth 1000000 in
/-- C12 (the code at the failing input): on the 600-byte archive `truncArchive` the
second header read delivers 88 bytes; `ARC_GetFileList` does not stop there: it
makes a record of these bytes and of what the local held before, appends the
name `"x"` and advances the cursor, returning `"a\0x\0\0"` (in the 32-bit and
in the 64-bit environment alike). -/
theorem ARC_GetFileList_short_read :
    truncArchive.length = 600 ∧
    (Read (Seek (openFile truncArchive) 512).2 512).1.length = 88 ∧
    (ARC_GetFileList env32 3 (openFile truncArchive)).map Prod.fst
      = some (some [97, 0, 120, 0, 0]) ∧
    (ARC_GetFileList env64 3 (openFile truncArchive)).map Prod.fst
      = some (some [97, 0, 120, 0, 0]) ∧
    (ARC_GetFileList env32 3 (openFile truncArchive)).map (fun r => r.2.calls)
      = some [Call.getSize, Call.seek 0, Call.read 512, Call.seek 512, Call.read 512] := by
  refine ⟨by decide!, by decide!, by decide!, by decide!, by decide!⟩

/-! ## C13: which name bytes take part in the comparison -/

theorem takeWhile_eq_iff (l t : List Nat) (ht : ∀ b, b ∈ t → b ≠ 0) :
    l.takeWhile (fun b => b != 0) = t ↔
      (l.take t.length = t ∧ (t.length < l.length → l.getD t.length 0 = 0)) := by
  induction l generalizing t with
  | nil =>
    cases t with
    | nil => simp
    | cons b t => simp
  | cons a l ih =>
    cases t with
    | nil =>
      by_cases ha : a = 0
      · subst ha; simp
      · simp [List.takeWhile_cons, ha]
    | cons b t =>
      have hb : b ≠ 0 := ht b (List.mem_cons_self b t)
      have iht := ih t (fun c hc => ht c (List.mem_cons_of_mem b hc))
      by_cases ha : a = 0
      · subst ha
        simp [List.takeWhile_cons, Ne.symm hb]
      · simp only [List.takeWhile_cons, bne_iff_ne, ne_eq, ha, not_false_eq_true, decide_True,
          ite_true, List.cons.injEq, List.length_cons, List.take_succ_cons,
          Nat.add_lt_add_iff_right, List.getD_cons_succ]
        rw [iht]
        tauto

/-- C13 (as stated, refuted): the record named `"a"`, NUL, `"b"` matches the target
`"a"` although one of its remaining 99 name bytes is not NUL; and an all-NUL
record, which agrees with the empty target over all 100 bytes, does not match. -/
theorem matches_not_fixed_width :
    (Matches staleNameRecord [97] ∧ ¬ FixedWidthMatch staleNameRecord [97]) ∧
    (¬ Matches (List.replicate 512 0) [] ∧ FixedWidthMatch (List.replicate 512 0) []) := by
  refine ⟨⟨by decide!, by decide!⟩, ⟨by decide!, by decide!⟩⟩

/-- C13 (amended): for every record of at least 100 bytes and every target of length
`L ≤ 100` (a string without NUL), the record matches if and only if `L ≥ 1`,
its first `L` name bytes equal the target and, when `L < 100`, its name byte
`L` is NUL; the name bytes after that NUL take no part. -/
theorem matches_iff_prefix_nul (e entry : List Nat) (he : 100 ≤ e.length)
    (hent : ∀ b, b ∈ entry → b ≠ 0) (hL : entry.length ≤ 100) :
    Matches e entry ↔
      (entry ≠ [] ∧ e.take entry.length = entry ∧
        (entry.length < 100 → e.getD entry.length 0 = 0)) := by
  have hc : cstring entry = entry := strlen_nul_free entry hent
  have hs : strlen entry ≤ 100 := by rw [← cstring_length, hc]; exact hL
  have h100 : (e.take 100).length = 100 := by simp [he]
  rw [matches_iff e entry hs, hc]
  unfold recordName
  rw [takeWhile_eq_iff (e.take 100) entry hent, h100, List.take_take, Nat.min_eq_left hL]
  have hget : entry.length < 100 → (e.take 100).getD entry.length 0 = e.getD entry.length 0 := by
    intro hlt
    simp [List.getD_eq_getElem?_getD, List.getElem?_take, hlt]
  constructor
  · rintro ⟨h0, h1, h2⟩
    refine ⟨?_, h1, fun hlt => by rw [← hget hlt]; exact h2 hlt⟩
    intro hnil
    have hl0 : entry.length = 0 := by rw [hnil]; rfl
    have h3 := h2 (by omega)
    rw [hget (by omega), hl0] at h3
    exact h0 h3
  · rintro ⟨h0, h1, h2⟩
    refine ⟨?_, h1, fun hlt => by rw [hget hlt]; exact h2 hlt⟩
    obtain ⟨b, t, hbt⟩ := List.exists_cons_of_ne_nil h0
    have hb : b ≠ 0 := hent b (by rw [hbt]; exact List.mem_cons_self b t)
    cases e with
    | nil => simp at he
    | cons c u =>
      rw [hbt, List.length_cons, List.take_succ_cons] at h1
      injection h1 with h3 h4
      rw [List.getD_cons_zero, h3]
      exact hb

/-- C13 (witness): the record named `"a"`, NUL, `"b"` and the target `"a"` meet the
premises, and the record matches. -/
theorem matches_iff_prefix_nul_witness :
    100 ≤ staleNameRecord.length ∧ (∀ b, b ∈ [97] → b ≠ 0) ∧ [97].length ≤ 100 ∧
    Matches staleNameRecord [97] :=
  ⟨by decide!, by decide, by decide,
    (matches_iff_prefix_nul staleNameRecord [97] (by decide!) (by decide) (by decide)).mpr
      ⟨by decide, by decide!, fun _ => by decide!⟩⟩

/-! ## The decoder on arbitrary bytes -/

theorem toU64_eq (x : Int) : ((toU64 x : Nat) : Int) = x % 2 ^ 64 := by
  unfold toU64
  exact Int.toNat_of_nonneg (Int.emod_nonneg x (by norm_num))

theorem toU64_natCast_mod (n : Nat) : toU64 (n : Int) = n % U64 := by
  unfold toU64 U64; omega

/-- One step of the second loop, in terms of integers. -/
theorem toU64_step (S y : Int) (m : Nat) :
    (toU64 S + toU64 y * (m % U64)) % U64 = toU64 (S + y * (m : Int)) := by
  have h : (((toU64 S + toU64 y * (m % U64)) % U64 : Nat) : Int)
      = ((toU64 (S + y * (m : Int)) : Nat) : Int) := by
    rw [toU64_eq]
    push_cast
    rw [toU64_eq, toU64_eq]
    have hU : ((U64 : Nat) : Int) = 2 ^ 64 := by unfold U64; norm_num
    rw [hU]
    rw [Int.add_emod, Int.mul_emod, Int.emod_emod_of_dvd _ (dvd_refl _),
      Int.emod_emod_of_dvd _ (dvd_refl _), Int.emod_emod_of_dvd _ (dvd_refl _),
      ← Int.mul_emod, ← Int.add_emod]
    norm_num
  exact Int.ofNat.inj h

/-- The Horner form of the positional sum. -/
theorem positionalSum_succ (data : Nat → Nat) (k : Nat) :
    positionalSum data (k + 1) = positionalSum data k * 8 + ((data k : Int) - 48) := by
  unfold positionalSum
  have hmap : List.map (fun i => ((data i : Int) - 48) * 8 ^ (k + 1 - 1 - i)) (List.range k)
      = List.map (fun i => ((data i : Int) - 48) * 8 ^ (k - 1 - i) * 8) (List.range k) := by
    apply List.map_congr_left
    intro i hi
    have hik : i < k := List.mem_range.mp hi
    have h2 : k + 1 - 1 - i = (k - 1 - i) + 1 := by omega
    rw [h2, pow_succ, mul_assoc]
  have h1 : k + 1 - 1 - k = 0 := by omega
  rw [List.range_succ, List.map_append, List.sum_append, hmap, List.sum_map_mul_right]
  simp [h1]

/-- The second loop adds `mult` times the positional sum, in wrapping arithmetic. -/
theorem accumulate_eq (data : Nat → Nat) (n : Nat) (S : Int) (j : Nat) :
    accumulate data n (toU64 S) (8 ^ j % U64)
      = toU64 (S + positionalSum data n * 8 ^ j) := by
  induction n generalizing S j with
  | zero => simp [accumulate, positionalSum]
  | succ n ih =>
    have e2 : 8 ^ j % U64 * 8 % U64 = 8 ^ (j + 1) % U64 := by
      rw [pow_succ]; simp [Nat.mul_mod]
    have e3 : toU64 S + toU64 (ASCII_TO_NUMBER (data n)) * (8 ^ j % U64)
        = toU64 S + toU64 (ASCII_TO_NUMBER (data n)) * ((8 ^ j : Nat) % U64) := rfl
    rw [accumulate, e2, e3, toU64_step, ih, positionalSum_succ]
    congr 1
    unfold ASCII_TO_NUMBER
    push_cast
    ring

theorem accumulate_positional (data : Nat → Nat) (n : Nat) :
    accumulate data n 0 1 = toU64 (positionalSum data n) := by
  have := accumulate_eq data n 0 0
  simpa [toU64, U64] using this

/-- C14 (as stated, refuted): (1) the buffers `"1\0\0"` and `"12\0"` differ only at
index 1, the index of the earliest terminator of the first, and decode (width
3) to 1 and to 10: a modification of the byte at that index changes the result;
(2) the buffer `"/\0"` has the positional sum `-1` and decodes to `2^64 - 1`. -/
theorem decodeTarOctal_boundary_refuted :
    (IsTerminator (bytesFn [49, 0, 0] 1) ∧ ¬ IsTerminator (bytesFn [49, 0, 0] 0) ∧
      (∀ i, i < 1 → bytesFn [49, 50, 0] i = bytesFn [49, 0, 0] i) ∧
      decodeTarOctal (bytesFn [49, 0, 0]) 3 = 1 ∧ decodeTarOctal (bytesFn [49, 50, 0]) 3 = 10) ∧
    (IsTerminator (bytesFn [47, 0] 1) ∧ ¬ IsTerminator (bytesFn [47, 0] 0) ∧
      positionalSum (bytesFn [47, 0]) 1 = -1 ∧
      decodeTarOctal (bytesFn [47, 0]) 2 = 18446744073709551615) := by
  refine ⟨⟨by decide, by decide, by decide, by decide, by decide⟩,
    ⟨by decide, by decide, by decide, by decide⟩⟩

/-- C14 (amended): for every width `w` and every buffer whose earliest NUL or space
is at an index `k < w`, `decodeTarOctal` returns the positional base-8 sum of
exactly the bytes before `k`, reduced modulo `2^64`; the result is the same for
every buffer that has the same bytes before `k` and a NUL or space at `k`,
whatever its bytes after `k`; and a buffer whose first byte is NUL or space
decodes to 0 at any width. -/
theorem decodeTarOctal_boundary (data : Nat → Nat) (w k : Nat) (hk : k < w)
    (hterm : IsTerminator (data k)) (hfirst : ∀ i, i < k → ¬ IsTerminator (data i)) :
    ((decodeTarOctal data w : Nat) : Int) = positionalSum data k % 2 ^ 64 ∧
    (∀ data2 : Nat → Nat, (∀ i, i < k → data2 i = data i) → IsTerminator (data2 k) →
      decodeTarOctal data2 w = decodeTarOctal data w) ∧
    (∀ (d0 : Nat → Nat) (w0 : Nat), IsTerminator (d0 0) → decodeTarOctal d0 w0 = 0) := by
  refine ⟨?_, ?_, ?_⟩
  · rw [decodeTarOctal_eq_accumulate data w k (by omega) hterm hfirst, accumulate_positional,
      toU64_eq]
  · intro data2 heq hterm2
    have hfirst2 : ∀ i, i < k → ¬ IsTerminator (data2 i) := by
      intro i hi; rw [heq i hi]; exact hfirst i hi
    rw [decodeTarOctal_eq_accumulate data w k (by omega) hterm hfirst,
      decodeTarOctal_eq_accumulate data2 w k (by omega) hterm2 hfirst2]
    exact accumulate_congr data2 data k 0 1 heq
  · intro d0 w0 h0
    rw [decodeTarOctal_eq_accumulate d0 w0 0 (Nat.zero_le _) h0
      (fun i hi => absurd hi (Nat.not_lt_zero i))]
    rfl

/-- C14 (witness): the buffer `"17 \0\0\0\0\0\0\0\0"` at width 11 has its earliest
terminator at index 2 and decodes to the positional sum 15 of its first two
bytes. -/
theorem decodeTarOctal_boundary_witness :
    IsTerminator (bytesFn [49, 55, 32, 0, 0, 0, 0, 0, 0, 0, 0] 2) ∧
    (∀ i, i < 2 → ¬ IsTerminator (bytesFn [49, 55, 32, 0, 0, 0, 0, 0, 0, 0, 0] i)) ∧
    ((decodeTarOctal (bytesFn [49, 55, 32, 0, 0, 0, 0, 0, 0, 0, 0]) 11 : Nat) : Int) = 15 :=
  ⟨by decide, by decide,
    (decodeTarOctal_boundary (bytesFn [49, 55, 32, 0, 0, 0, 0, 0, 0, 0, 0]) 11 2 (by decide)
      (by decide) (by decide)).1.trans (by decide)⟩

/-! ## C15: a field without terminator -/

set_option maxRecDepth 1000000 in
/-- C15 (the code at the failing input): the width-2 buffer `"12"` decodes to 10
when the byte after it is NUL and to 83 (octal 123) when that byte is `'3'`;
`getFileSize` on a record whose size field holds the 12 digits `"000000000012"`
(value 10) returns 10 when the next byte of the record is NUL and 81 (octal
121) when it is the digit `'1'`. -/
theorem decodeTarOctal_reads_past_field :
    (∀ i, i < 2 → ¬ IsTerminator (bytesFn [49, 50, 51] i)) ∧
    octalValue (bytesFn [49, 50, 51]) 2 = 10 ∧
    decodeTarOctal (bytesFn [49, 50, 0]) 2 = 10 ∧
    decodeTarOctal (bytesFn [49, 50, 51]) 2 = 83 ∧
    (∀ i, i < 12 → IsOctalDigit ((twelveDigitHeader 49).getD (124 + i) 0)) ∧
    octalValue (fun i => (twelveDigitHeader 49).getD (124 + i) 0) 12 = 10 ∧
    getFileSize env32 (twelveDigitHeader 0) = 10 ∧
    getFileSize env32 (twelveDigitHeader 49) = 81 ∧
    getFileSize env64 (twelveDigitHeader 49) = 81 := by
  refine ⟨by decide, by decide, by decide, by decide, by decide!, by decide!, by decide!,
    by decide!, by decide!⟩

/-! ## C17: no digit validation -/

/-- A listing pass that read a record moves the cursor by `advance`, whatever the
first name byte is. -/
theorem listBody_pos (E : Env) (max : Int) (s : ListState) (e : List Nat)
    (he : listHeaderAt E s = some e) :
    (listBody E max s).1.pos = advance E e s.pos ∧
    (listBody E max s).2 = decide (advance E e s.pos < max ∧ advance E e s.pos > 0) := by
  unfold listHeaderAt at he
  unfold listBody
  simp only []
  split at he
  · exact absurd he (by simp)
  · next h1 =>
    split at he
    · exact absurd he (by simp)
    · next h2 =>
      injection he with he
      rw [if_neg h1, if_neg h2, he]
      exact ⟨rfl, rfl⟩

/-- C16: for every record `e` read at cursor `p` whose size `s = getFileSize e` keeps
`p + 512 + 512 * ceil(s / 512)` below `2^31`, the cursor arithmetic gives
exactly that value (`p + 512` when `s = 0`); a pass of the listing loop that
read `e` leaves the cursor there, whether or not the first name byte is NUL,
and so does a pass of the extraction loop that read `e` without a match, which
goes on when the loop condition holds for that value. -/
theorem cursor_advance (E : Env) (e : List Nat) (p s : Nat) (hs : getFileSize E e = s)
    (hfit : p + (512 + 512 * ((s + 511) / 512)) < 2 ^ 31) :
    advance E e (p : Int) = ((p + (512 + 512 * ((s + 511) / 512)) : Nat) : Int) ∧
    (s = 0 → advance E e (p : Int) = ((p + 512 : Nat) : Int)) ∧
    (∀ (max : Int) (st : ListState), st.pos = (p : Int) → listHeaderAt E st = some e →
      (listBody E max st).1.pos = ((p + (512 + 512 * ((s + 511) / 512)) : Nat) : Int)) ∧
    (∀ (max : Int) (entry : List Nat) (len : Nat) (st st1 : WalkState), st.pos = (p : Int) →
      headerAt E st = some e → decompressBody E max entry len st = Flow.next st1 →
      st1.pos = ((p + (512 + 512 * ((s + 511) / 512)) : Nat) : Int)) ∧
    (∀ (max : Int) (entry : List Nat) (len : Nat) (st : WalkState), st.pos = (p : Int) →
      headerAt E st = some e → ¬ Matches e entry →
      ((p + (512 + 512 * ((s + 511) / 512)) : Nat) : Int) < max →
      ∃ st1, decompressBody E max entry len st = Flow.next st1 ∧
        st1.pos = ((p + (512 + 512 * ((s + 511) / 512)) : Nat) : Int)) := by
  have hadv := advance_ok E e p s hs hfit
  refine ⟨hadv, ?_, ?_, ?_, ?_⟩
  · intro h0
    rw [hadv]
    have : p + (512 + 512 * ((s + 511) / 512)) = p + 512 := by omega
    rw [this]
  · intro max st hp he
    rw [(listBody_pos E max st e he).1, hp, hadv]
  · intro max entry len st st1 hp he hnext
    obtain ⟨e1, he1, -, hst1, -, -⟩ := decompressBody_next E max entry len st st1 hnext
    have he2 : e = e1 := Option.some.inj (he.symm.trans he1)
    have hpos : st1.pos = advance E e1 st.pos := by rw [hst1]
    rw [hpos, ← he2, hp, hadv]
  · intro max entry len st hp he hm hlt
    have h1 : advance E e st.pos = ((p + (512 + 512 * ((s + 511) / 512)) : Nat) : Int) := by
      rw [hp, hadv]
    refine ⟨_, decompressBody_nomatch E max entry len st e he hm (by rw [h1]; exact hlt)
      (by rw [h1]; omega), h1⟩

set_option maxRecDepth 1000000 in
/-- C16 (witness): the header of `big.bin` (1000 bytes) read at cursor 0 moves the
cursor to 1536, and an all-zero block read at cursor 1536 moves it to 2048. -/
theorem cursor_advance_witness :
    getFileSize env32 (mkHeader nameBig 1000) = 1000 ∧
    advance env32 (mkHeader nameBig 1000) ((0 : Nat) : Int) = ((1536 : Nat) : Int) ∧
    getFileSize env32 (List.replicate 512 0) = 0 ∧
    advance env32 (List.replicate 512 0) ((1536 : Nat) : Int) = ((2048 : Nat) : Int) :=
  ⟨by decide!,
    (cursor_advance env32 (mkHeader nameBig 1000) 0 1000 (by decide!) (by decide)).1,
    by decide!,
    (cursor_advance env32 (List.replicate 512 0) 1536 0 (by decide!) (by decide)).1⟩

/-! ## C18: a walk that does not end -/

theorem toSizeT_small (E : Env) (x : Nat) (h : x < 2 ^ 32) : toSizeT E x = x := by
  unfold toSizeT
  split <;> omega

theorem listBody_bytes (E : Env) (max : Int) (s : ListState) :
    (listBody E max s).1.file.bytes = s.file.bytes := by
  unfold listBody
  simp only []
  split
  · exact Seek_bytes _ _
  · split
    · show (Read _ 512).2.bytes = _
      rw [Read_bytes, Seek_bytes]
    · show (Read _ 512).2.bytes = _
      rw [Read_bytes, Seek_bytes]

theorem listHeaderAt_full (E : Env) (s : ListState) (a : List Nat) (p : Nat)
    (hb : s.file.bytes = a) (hp : s.pos = (p : Int)) (hlt : p < 2 ^ 31)
    (hhdr : p + 512 ≤ a.length) : listHeaderAt E s = some (field a p 512) := by
  have hdw : toDWORD s.pos = p := by rw [hp]; exact toDWORD_natCast p (by omega)
  have hsk : (Seek s.file p).1 = true := by
    rw [Seek_fst, hb]; exact decide_eq_true (by omega)
  have hrd : (Read (Seek s.file p).2 512).1 = field a p 512 := by
    rw [Read_fst, Seek_bytes, Seek_cursor _ _ (by rw [hb]; omega), hb]; rfl
  have hfl : (field a p 512).length = 512 := field_length a p 512 hhdr
  unfold listHeaderAt
  rw [hdw, hsk, hrd, hfl, localEntry_full _ _ hfl]
  simp

set_option maxRecDepth 1000000 in
theorem loopArchive_facts (E : Env) :
    loopArchive.length = 1536 ∧
    advance E (field loopArchive 0 512) ((0 : Nat) : Int) = 512 ∧
    advance E (field loopArchive 512 512) ((512 : Nat) : Int) = 1024 ∧
    advance E (field loopArchive 1024 512) ((1024 : Nat) : Int) = 512 ∧
    (∀ entry, ¬ Matches (field loopArchive 0 512) entry) ∧
    (∀ entry, ¬ Matches (field loopArchive 512 512) entry) ∧
    (∀ entry, ¬ Matches (field loopArchive 1024 512) entry) := by
  have hlen : loopArchive.length = 1536 := by decide!
  have d0 : decodeTarOctal (fun i => (field loopArchive 0 512).getD (124 + i) 0) 12 = 0 := by
    decide!
  have d1 : decodeTarOctal (fun i => (field loopArchive 512 512).getD (124 + i) 0) 12 = 0 := by
    decide!
  have d2 : decodeTarOctal (fun i => (field loopArchive 1024 512).getD (124 + i) 0) 12
      = 4294966272 := by decide!
  have g0 : getFileSize E (field loopArchive 0 512) = 0 := by
    unfold getFileSize; rw [d0]; exact toSizeT_small E 0 (by norm_num)
  have g1 : getFileSize E (field loopArchive 512 512) = 0 := by
    unfold getFileSize; rw [d1]; exact toSizeT_small E 0 (by norm_num)
  have g2 : getFileSize E (field loopArchive 1024 512) = 4294966272 := by
    unfold getFileSize; rw [d2]; exact toSizeT_small E _ (by norm_num)
  have n0 : (field loopArchive 0 512).getD 0 0 = 0 := by decide!
  have n1 : (field loopArchive 512 512).getD 0 0 = 0 := by decide!
  have n2 : (field loopArchive 1024 512).getD 0 0 = 0 := by decide!
  refine ⟨hlen, ?_, ?_, ?_, fun entry h => h.1 n0, fun entry h => h.1 n1, fun entry h => h.1 n2⟩
  · rw [advance_ok E _ 0 0 g0 (by norm_num)]; rfl
  · rw [advance_ok E _ 512 0 g1 (by norm_num)]; rfl
  · unfold advance blockCount
    rw [g2, if_pos (by norm_num)]
    decide

/-- The listing loop on `loopArchive`, from cursor 0, 512 or 1024, never leaves. -/
theorem listLoop_loopArchive (E : Env) (fuel : Nat) (s : ListState)
    (hb : s.file.bytes = loopArchive) (hp : s.pos = 0 ∨ s.pos = 512 ∨ s.pos = 1024) :
    listLoop E 1536 fuel s = none := by
  obtain ⟨hlen, h0, h1, h2, -⟩ := loopArchive_facts E
  induction fuel generalizing s with
  | zero => rfl
  | succ fuel ih =>
    have hb1 := listBody_bytes E 1536 s
    rw [hb] at hb1
    rcases hp with hp | hp | hp
    · have hp2 : s.pos = ((0 : Nat) : Int) := by rw [hp]; rfl
      have hh := listHeaderAt_full E s loopArchive 0 hb hp2 (by norm_num) (by omega)
      obtain ⟨hpos, hcont⟩ := listBody_pos E 1536 s _ hh
      rw [hp2, h0] at hpos hcont
      rw [listLoop, hcont, if_pos (by decide)]
      exact ih _ hb1 (Or.inr (Or.inl hpos))
    · have hp2 : s.pos = ((512 : Nat) : Int) := by rw [hp]; rfl
      have hh := listHeaderAt_full E s loopArchive 512 hb hp2 (by norm_num) (by omega)
      obtain ⟨hpos, hcont⟩ := listBody_pos E 1536 s _ hh
      rw [hp2, h1] at hpos hcont
      rw [listLoop, hcont, if_pos (by decide)]
      exact ih _ hb1 (Or.inr (Or.inr hpos))
    · have hp2 : s.pos = ((1024 : Nat) : Int) := by rw [hp]; rfl
      have hh := listHeaderAt_full E s loopArchive 1024 hb hp2 (by norm_num) (by omega)
      obtain ⟨hpos, hcont⟩ := listBody_pos E 1536 s _ hh
      rw [hp2, h2] at hpos hcont
      rw [listLoop, hcont, if_pos (by decide)]
      exact ih _ hb1 (Or.inr (Or.inl hpos))

/-- The extraction loop on `loopArchive`, from cursor 0, 512 or 1024, never leaves. -/
theorem decompressLoop_loopArchive (E : Env) (entry : List Nat) (len fuel : Nat) (s : WalkState)
    (hb : s.file.bytes = loopArchive) (hp : s.pos = 0 ∨ s.pos = 512 ∨ s.pos = 1024) :
    decompressLoop E 1536 entry len fuel s = none := by
  obtain ⟨hlen, h0, h1, h2, m0, m1, m2⟩ := loopArchive_facts E
  induction fuel generalizing s with
  | zero => rfl
  | succ fuel ih =>
    rcases hp with hp | hp | hp
    · have hp2 : s.pos = ((0 : Nat) : Int) := by rw [hp]; rfl
      obtain ⟨hh, hfb⟩ := headerAt_full E s loopArchive 0 hb hp2 (by norm_num) (by omega)
      have hadv : advance E (field loopArchive 0 512) s.pos = 512 := by rw [hp2, h0]
      rw [decompressLoop, decompressBody_nomatch E 1536 entry len s _ hh (m0 entry)
        (by rw [hadv]; decide) (by rw [hadv]; decide)]
      exact ih _ hfb (Or.inr (Or.inl hadv))
    · have hp2 : s.pos = ((512 : Nat) : Int) := by rw [hp]; rfl
      obtain ⟨hh, hfb⟩ := headerAt_full E s loopArchive 512 hb hp2 (by norm_num) (by omega)
      have hadv : advance E (field loopArchive 512 512) s.pos = 1024 := by rw [hp2, h1]
      rw [decompressLoop, decompressBody_nomatch E 1536 entry len s _ hh (m1 entry)
        (by rw [hadv]; decide) (by rw [hadv]; decide)]
      exact ih _ hfb (Or.inr (Or.inr hadv))
    · have hp2 : s.pos = ((1024 : Nat) : Int) := by rw [hp]; rfl
      obtain ⟨hh, hfb⟩ := headerAt_full E s loopArchive 1024 hb hp2 (by norm_num) (by omega)
      have hadv : advance E (field loopArchive 1024 512) s.pos = 512 := by rw [hp2, h2]
      rw [decompressLoop, decompressBody_nomatch E 1536 entry len s _ hh (m2 entry)
        (by rw [hadv]; decide) (by rw [hadv]; decide)]
      exact ih _ hfb (Or.inr (Or.inl hadv))

/-- C18 (the code at the failing input): on the 1536-byte archive `loopArchive`, in
every environment, the cursor (a wrapping 32-bit `int`) goes from 0 to 512, from
512 to 1024 and from 1024 back to 512, each time inside `0 < pos < max`, so the
loop goes on with a smaller cursor; `ARC_GetFileList` does not return for any
amount of fuel, and neither does `ARC_DecompressFile` for the target `a.txt`. -/
theorem walk_never_returns (E : Env) (fuel : Nat) :
    loopArchive.length = 1536 ∧
    advance E (field loopArchive 0 512) ((0 : Nat) : Int) = 512 ∧
    advance E (field loopArchive 512 512) ((512 : Nat) : Int) = 1024 ∧
    advance E (field loopArchive 1024 512) ((1024 : Nat) : Int) = 512 ∧
    ARC_GetFileList E fuel (openFile loopArchive) = none ∧
    ARC_DecompressFile E fuel (openFile loopArchive) nameA 100 = none := by
  obtain ⟨hlen, h0, h1, h2, -⟩ := loopArchive_facts E
  have hmax : walkMax loopArchive = 1536 := by
    unfold walkMax
    rw [(GetSize_openFile loopArchive (by rw [hlen]; decide)).1, hlen]
    rfl
  refine ⟨hlen, h0, h1, h2, ?_, ?_⟩
  · unfold ARC_GetFileList
    simp only []
    have hm : wrapInt ((GetSize (openFile loopArchive)).1 : Int) = 1536 := hmax
    rw [hm, listLoop_loopArchive E fuel _ rfl (Or.inl rfl)]
    rfl
  · rw [ARC_DecompressFile_eq_loop E loopArchive nameA 100 fuel (by decide), hmax]
    exact decompressLoop_loopArchive E nameA 100 fuel _ rfl (Or.inl rfl)

/-! ## C19: `ARC_CheckFile` on a short byte source -/

theorem ARC_CheckFile_eq (E : Env) (a e : List Nat)
    (he : localEntry (E.junk 0) (Read (openFile a) 512).1 = e) (hlen : e.length = 512) :
    (ARC_CheckFile E (openFile a)).1
      = (isUSTAR e &&
          (decodeTarOctal (memAt (field e 148 8) E.stack) 12 == toU64 (unsignedByteSum (spaced e)) ||
           decodeTarOctal (memAt (field e 148 8) E.stack) 12 == toU64 (signedByteSum (spaced e)))) := by
  unfold ARC_CheckFile
  simp only []
  rw [he, checkChecksum_eq _ _ hlen]

set_option maxRecDepth 1000000 in
/-- C19 (the code at the failing input): the comparison of the read count controls
an empty statement, so a short read is not rejected. (1) On the empty byte
source the result is that of the uninitialised local record: true when it holds
a valid header, false when it holds NULs, so the source's bytes do not determine
it. (2) On the 300-byte source made of the first 300 bytes of a valid header
whose other bytes are NUL, with NULs in the uninitialised memory, the result is
true. -/
theorem ARC_CheckFile_short_source :
    (ARC_CheckFile envStale (openFile [])).1 = true ∧
    (ARC_CheckFile env32 (openFile [])).1 = false ∧
    ((mkHeader [97] 0).take 300).length = 300 ∧
    (ARC_CheckFile env32 (openFile ((mkHeader [97] 0).take 300))).1 = true := by
  have hlen : (mkHeader [97] 0).length = 512 := by decide!
  have h1 : localEntry (envStale.junk 0) (Read (openFile []) 512).1 = mkHeader [97] 0 := by
    decide!
  have h2 : localEntry (env32.junk 0) (Read (openFile []) 512).1 = List.replicate 512 0 := by
    decide!
  have h3 : localEntry (env32.junk 0) (Read (openFile ((mkHeader [97] 0).take 300)) 512).1
      = mkHeader [97] 0 := by decide!
  refine ⟨?_, ?_, by decide!, ?_⟩
  · rw [ARC_CheckFile_eq envStale [] _ h1 hlen]; decide!
  · rw [ARC_CheckFile_eq env32 [] _ h2 (by decide!)]; decide!
  · rw [ARC_CheckFile_eq env32 _ _ h3 hlen]; decide!

/-! ## C10: the first entry that carries the name is delivered -/

/-- As long as no record read so far matches, the extraction loop is at the states
of the shared walk. -/
theorem decompressIter_of_walkIter (E : Env) (max : Int) (entry : List Nat) (len i : Nat)
    (s0 s : WalkState) (h : walkIter E max i s0 = some s)
    (hno : ∀ j sj ej, j < i → walkIter E max j s0 = some sj → headerAt E sj = some ej →
      ¬ Matches ej entry) :
    decompressIter E max entry len i s0 = some s := by
  induction i generalizing s0 with
  | zero => exact h
  | succ i ih =>
    rw [walkIter] at h
    split at h
    · exact absurd h (by simp)
    · next e he =>
      split at h
      · next hc =>
        have hm : ¬ Matches e entry := hno 0 s0 e (Nat.succ_pos i) rfl he
        rw [decompressIter, decompressBody_nomatch E max entry len s0 e he hm hc.1 hc.2]
        refine ih _ h ?_
        intro j sj ej hj hsj hej
        refine hno (j + 1) sj ej (by omega) ?_ hej
        rw [walkIter, he]
        simp only []
        rw [if_pos hc]
        exact hsj
      · exact absurd h (by simp)

/-- The shared walk makes one size query and, per iteration, one seek and one read. -/
theorem walkIter_calls (E : Env) (max : Int) (i : Nat) (s0 s : WalkState)
    (h : walkIter E max i s0 = some s) :
    s.file.calls.length = s0.file.calls.length + 2 * i := by
  induction i generalizing s0 with
  | zero =>
    simp only [walkIter, Option.some.injEq] at h
    rw [h]; rfl
  | succ i ih =>
    rw [walkIter] at h
    split at h
    · exact absurd h (by simp)
    · next e he =>
      split at h
      · have := ih _ h
        rw [this]
        show (Read (Seek s0.file (toDWORD s0.pos)).2 512).2.calls.length + 2 * i = _
        rw [(header_read_calls s0.file (toDWORD s0.pos)).1]
        simp only [List.length_append, List.length_cons, List.length_nil]
        omega
      · exact absurd h (by simp)

theorem toDWORD_wrapInt_add (p : Nat) (h : p < 2 ^ 31) :
    toDWORD (wrapInt ((p : Int) + 512)) = p + 512 := by
  unfold toDWORD wrapInt; omega

/-- C10: for every archive whose entries, in the order of the walk, reach at index `i`
a whole header block at offset `p` that carries the target name (at most 100
bytes) while no entry before index `i` does (entries after it may), and with
fuel for more than `i` iterations, `ARC_DecompressFile` returns the data of that
first entry: the archive bytes from `p + 512`, cut to `min(m, s)`. The byte
source has then seen the size query, one seek and one read for each of the
`i + 1` headers, and one seek and one read for the data: no header is read
after the match. The result comes from the first match of the extraction loop
(`FirstMatch`). -/
theorem ARC_DecompressFile_first_entry (E : Env) (a entry : List Nat) (m fuel i p : Nat)
    (s : WalkState) (hname : strlen entry ≤ 100)
    (hwalk : walkIter E (walkMax a) i (walkStart a) = some s) (hp : s.pos = (p : Int))
    (hhdr : p + 512 ≤ a.length) (hm : Matches (field a p 512) entry)
    (hfirst : ∀ j sj ej, j < i → walkIter E (walkMax a) j (walkStart a) = some sj →
      headerAt E sj = some ej → ¬ Matches ej entry)
    (hfuel : i < fuel) :
    ∃ r, ARC_DecompressFile E fuel (openFile a) entry m = some r ∧
      r.buf = some ((a.drop (p + 512)).take (min m (getFileSize E (field a p 512)))) ∧
      r.len = ((a.drop (p + 512)).take (min m (getFileSize E (field a p 512)))).length ∧
      r.file.calls = s.file.calls ++ [Call.seek p, Call.read 512, Call.seek (p + 512),
        Call.read (min m (getFileSize E (field a p 512)))] ∧
      r.file.calls.length = 1 + 2 * (i + 1) + 2 ∧
      FirstMatch E a entry m r := by
  have hs := decompressIter_of_walkIter E (walkMax a) entry m i _ s hwalk hfirst
  obtain ⟨hbytes, -, hlt⟩ := decompressIter_inv E _ entry m i _ s hs
    ⟨le_refl _, show (0 : Int) < 2 ^ 31 by norm_num⟩
  have hb : s.file.bytes = a := hbytes
  have hp31 : p < 2 ^ 31 := by rw [hp] at hlt; omega
  obtain ⟨hhead, hfb⟩ := headerAt_full E s a p hb hp hp31 hhdr
  have hbody := decompressBody_match E (walkMax a) entry m s _ hhead hm
  obtain ⟨k, hk⟩ : ∃ k, fuel = i + (k + 1) := ⟨fuel - i - 1, by omega⟩
  have hd := deliver_spec E m p (field a p 512) a _ hfb hp31 hhdr
  rw [← hp] at hd
  have hr : ARC_DecompressFile E fuel (openFile a) entry m
      = some (deliver E m s.pos (field a p 512) (Read (Seek s.file (toDWORD s.pos)).2 512).2) := by
    rw [ARC_DecompressFile_eq_loop E a entry m fuel hname, hk,
      decompressLoop_of_iter E _ entry m i (k + 1) _ s hs, decompressLoop, hbody]
  have hne : (deliver E m s.pos (field a p 512) (Read (Seek s.file (toDWORD s.pos)).2 512).2).buf
      ≠ none := by rw [hd.1]; exact Option.some_ne_none _
  have hdw : toDWORD s.pos = p := by rw [hp]; exact toDWORD_natCast p (by omega)
  have hdw2 : toDWORD (wrapInt (s.pos + 512)) = p + 512 := by
    rw [hp]; exact toDWORD_wrapInt_add p hp31
  have hcalls : (deliver E m s.pos (field a p 512)
      (Read (Seek s.file (toDWORD s.pos)).2 512).2).file.calls
      = s.file.calls ++ [Call.seek p, Call.read 512, Call.seek (p + 512),
          Call.read (min m (getFileSize E (field a p 512)))] := by
    rw [(deliver_some E m s.pos (field a p 512) _ hne).2,
      (header_read_calls s.file (toDWORD s.pos)).1, hdw, hdw2, Nat.min_comm, List.append_assoc,
      List.cons_append, List.cons_append, List.nil_append]
  have hlen0 : s.file.calls.length = 1 + 2 * i := by
    have h1 : (walkStart a).file.calls.length = 1 := rfl
    rw [walkIter_calls E _ i _ s hwalk, h1]
  refine ⟨_, hr, ?_, ?_, hcalls, ?_, ?_⟩
  · rw [hd.1, Nat.min_comm]
  · rw [hd.2, Nat.min_comm]
  · rw [hcalls, List.length_append, hlen0]
    simp only [List.length_cons, List.length_nil]
    omega
  · exact ARC_DecompressFile_first_match E a entry m fuel _ hname hr hne

set_option maxRecDepth 1000000 in
/-- C10 (witness): in the archive of `ab.txt`, `a.txt` (data `"hello"`) and a second
`a.txt`, the entry at index 1 (offset 512) is the first that carries the name
`a.txt` and the entry at offset 1536 carries it too; the request returns
`"hello"` after the size query, two header reads and the data read. -/
theorem ARC_DecompressFile_first_entry_witness :
    strlen nameA ≤ 100 ∧ 512 + 512 ≤ tripleArchive.length ∧
    ¬ Matches (field tripleArchive 0 512) nameA ∧
    Matches (field tripleArchive 512 512) nameA ∧
    Matches (field tripleArchive 1536 512) nameA ∧
    ∃ r, ARC_DecompressFile env32 2 (openFile tripleArchive) nameA 100 = some r ∧
      r.buf = some hello ∧
      r.file.calls = [Call.getSize, Call.seek 0, Call.read 512, Call.seek 512, Call.read 512,
        Call.seek 1024, Call.read 5] := by
  have hname : strlen nameA ≤ 100 := by decide
  have hlen : tripleArchive.length = 2048 := by decide!
  have hhdr : 512 + 512 ≤ tripleArchive.length := by rw [hlen]; decide
  have hm0 : ¬ Matches (field tripleArchive 0 512) nameA := by decide!
  have hm1 : Matches (field tripleArchive 512 512) nameA := by decide!
  have hm2 : Matches (field tripleArchive 1536 512) nameA := by decide!
  have hh0 : headerAt env32 (walkStart tripleArchive) = some (field tripleArchive 0 512) :=
    (headerAt_full env32 (walkStart tripleArchive) tripleArchive 0 rfl rfl (by norm_num)
      (by rw [hlen]; decide)).1
  have hwalk : walkIter env32 (walkMax tripleArchive) 1 (walkStart tripleArchive)
      = some { pos := 512,
               file := (Read (Seek (walkStart tripleArchive).file 0).2 512).2, it := 1 } := by
    decide!
  obtain ⟨r, hr, hbuf, -, hcalls, -, -⟩ := ARC_DecompressFile_first_entry env32 tripleArchive
    nameA 100 2 1 512 _ hname hwalk rfl hhdr hm1
    (by
      intro j sj ej hj hsj hej
      have hj0 : j = 0 := by omega
      subst hj0
      have hs : walkStart tripleArchive = sj := Option.some.inj hsj
      rw [← hs, hh0] at hej
      rw [← Option.some.inj hej]
      exact hm0)
    (by decide)
  exact ⟨hname, hhdr, hm0, hm1, hm2, r, hr, hbuf.trans (by decide!), hcalls.trans (by decide!)⟩

/-! ## C7: no match and no result -/

/-- Every state the extraction loop reaches on `loopArchive` holds the archive and has
its cursor at 0, 512 or 1024. -/
theorem decompressIter_loopArchive (E : Env) (entry : List Nat) (len i : Nat)
    (s0 s : WalkState) (h : decompressIter E 1536 entry len i s0 = some s)
    (hb : s0.file.bytes = loopArchive) (hp : s0.pos = 0 ∨ s0.pos = 512 ∨ s0.pos = 1024) :
    s.file.bytes = loopArchive ∧ (s.pos = 0 ∨ s.pos = 512 ∨ s.pos = 1024) := by
  obtain ⟨hlen, h0, h1, h2, -⟩ := loopArchive_facts E
  induction i generalizing s0 with
  | zero =>
    simp only [decompressIter, Option.some.injEq] at h
    rw [← h]; exact ⟨hb, hp⟩
  | succ i ih =>
    rw [decompressIter] at h
    split at h
    · next s1 heq =>
      obtain ⟨e, he, -, hs1, -, -⟩ := decompressBody_next E 1536 entry len s0 s1 heq
      have hpos1 : s1.pos = advance E e s0.pos := by rw [hs1]
      have hb1 : s1.file.bytes = loopArchive := by
        rw [hs1]; show (Read _ 512).2.bytes = _; rw [Read_bytes, Seek_bytes, hb]
      refine ih s1 h hb1 ?_
      rcases hp with hp | hp | hp
      · have hp2 : s0.pos = ((0 : Nat) : Int) := by rw [hp]; rfl
        have hh := (headerAt_full E s0 loopArchive 0 hb hp2 (by norm_num) (by omega)).1
        have he2 : field loopArchive 0 512 = e := Option.some.inj (hh.symm.trans he)
        rw [hpos1, ← he2, hp2, h0]; exact Or.inr (Or.inl rfl)
      · have hp2 : s0.pos = ((512 : Nat) : Int) := by rw [hp]; rfl
        have hh := (headerAt_full E s0 loopArchive 512 hb hp2 (by norm_num) (by omega)).1
        have he2 : field loopArchive 512 512 = e := Option.some.inj (hh.symm.trans he)
        rw [hpos1, ← he2, hp2, h1]; exact Or.inr (Or.inr rfl)
      · have hp2 : s0.pos = ((1024 : Nat) : Int) := by rw [hp]; rfl
        have hh := (headerAt_full E s0 loopArchive 1024 hb hp2 (by norm_num) (by omega)).1
        have he2 : field loopArchive 1024 512 = e := Option.some.inj (hh.symm.trans he)
        rw [hpos1, ← he2, hp2, h2]; exact Or.inr (Or.inl rfl)
    · exact absurd h (by simp)

/-- C7 (the code at the failing input): on the 1536-byte archive `loopArchive` and the
target `a.txt`, in every environment, no record that the walk visits matches
the target, yet `ARC_DecompressFile` does not
return `NULL`: it does not return for any amount of fuel. -/
theorem ARC_DecompressFile_no_match_no_return (E : Env) (fuel : Nat) :
    strlen nameA ≤ 100 ∧
    (∀ i p e, VisitsAt E loopArchive nameA 100 i p e → ¬ Matches e nameA) ∧
    ARC_DecompressFile E fuel (openFile loopArchive) nameA 100 = none := by
  obtain ⟨hlen, -, -, -, m0, m1, m2⟩ := loopArchive_facts E
  have hmax : walkMax loopArchive = 1536 := by
    unfold walkMax
    rw [(GetSize_openFile loopArchive (by rw [hlen]; decide)).1, hlen]
    rfl
  have hrec : ∀ i p e, VisitsAt E loopArchive nameA 100 i p e →
      e = field loopArchive 0 512 ∨ e = field loopArchive 512 512 ∨
        e = field loopArchive 1024 512 := by
    intro i p e hv
    obtain ⟨s, hs, -, he⟩ := hv
    rw [hmax] at hs
    obtain ⟨hb, hp⟩ := decompressIter_loopArchive E nameA 100 i _ s hs rfl (Or.inl rfl)
    rcases hp with hp | hp | hp
    · have hp2 : s.pos = ((0 : Nat) : Int) := by rw [hp]; rfl
      have hh := (headerAt_full E s loopArchive 0 hb hp2 (by norm_num) (by omega)).1
      exact Or.inl (Option.some.inj (he.symm.trans hh))
    · have hp2 : s.pos = ((512 : Nat) : Int) := by rw [hp]; rfl
      have hh := (headerAt_full E s loopArchive 512 hb hp2 (by norm_num) (by omega)).1
      exact Or.inr (Or.inl (Option.some.inj (he.symm.trans hh)))
    · have hp2 : s.pos = ((1024 : Nat) : Int) := by rw [hp]; rfl
      have hh := (headerAt_full E s loopArchive 1024 hb hp2 (by norm_num) (by omega)).1
      exact Or.inr (Or.inr (Option.some.inj (he.symm.trans hh)))
  have hnone : ARC_DecompressFile E fuel (openFile loopArchive) nameA 100 = none := by
    rw [ARC_DecompressFile_eq_loop E loopArchive nameA 100 fuel (by decide), hmax]
    exact decompressLoop_loopArchive E nameA 100 fuel _ rfl (Or.inl rfl)
  have hnm : ∀ i p e, VisitsAt E loopArchive nameA 100 i p e → ¬ Matches e nameA := by
    intro i p e hv
    rcases hrec i p e hv with h | h | h
    · rw [h]; exact m0 nameA
    · rw [h]; exact m1 nameA
    · rw [h]; exact m2 nameA
  exact ⟨by decide, hnm, hnone⟩

end XmpTar
